import Mathlib

/-!
Shallow embedding of `stellar/data/stellargraph.py`: the heterogeneous
graph schema (`GraphSchema`, `create_graph_schema`) and the type-level
sampling-structure generators (`get_sampling_tree`,
`get_type_adjacency_list`), together with proofs settling the frozen
claims about the module.

Conventions of the embedding:
* node identities and type labels are strings (`NodeId`, `Label`);
* Python dictionaries are association lists, `dict[k]` lookups that can
  raise `KeyError` are modelled with `Option` / `Except`;
* Python integers are `Int` where negative values matter, `Nat` otherwise;
* `str(i)` on a natural number is modelled by `natStr` (decimal);
* iteration order over `self.nodes(...)` / `self.edges(...)` is the order
  of the corresponding list in `SGraph`.
-/

namespace Stellar

abbrev NodeId := String
abbrev Label := String

/-- `EdgeType = namedtuple("EdgeType", "n1 rel n2")`. -/
structure EdgeType where
  n1 : Label
  rel : Label
  n2 : Label
deriving DecidableEq, Repr

/-- Python's `<` on strings: lexicographic comparison of code points
(kernel-reducible, unlike the iterator-based library order). -/
def listLt : List Char → List Char → Prop
  | _ :: _, [] => False
  | [], [] => False
  | [], _ :: _ => True
  | a :: as, b :: bs => a.toNat < b.toNat ∨ (a = b ∧ listLt as bs)

def listLtDec : (a b : List Char) → Decidable (listLt a b)
  | _ :: _, [] => isFalse (fun h => h)
  | [], [] => isFalse (fun h => h)
  | [], _ :: _ => isTrue trivial
  | a :: as, b :: bs =>
    have : Decidable (listLt as bs) := listLtDec as bs
    decidable_of_iff (a.toNat < b.toNat ∨ (a = b ∧ listLt as bs)) Iff.rfl

instance : DecidableRel listLt := listLtDec

/-- Strict string comparison (Python `a < b`). -/
def strLt (a b : String) : Prop := listLt a.data b.data

/-- Non-strict string comparison (Python `a <= b`). -/
def strLe (a b : String) : Prop := strLt a b ∨ a = b

instance : DecidableRel strLt := fun a b => by
  unfold strLt; infer_instance

instance : DecidableRel strLe := fun a b => by
  unfold strLe; infer_instance

/-- Python's tuple ordering on `EdgeType` (lexicographic by field). -/
def etLe (a b : EdgeType) : Prop :=
  strLt a.n1 b.n1 ∨ (a.n1 = b.n1 ∧ (strLt a.rel b.rel ∨ (a.rel = b.rel ∧ strLe a.n2 b.n2)))

instance : DecidableRel etLe := fun a b => by
  unfold etLe; infer_instance

/-- The decimal digit characters, as produced by Python's `str` on `0..9`. -/
def digitChar10 : Nat → Char
  | 0 => '0' | 1 => '1' | 2 => '2' | 3 => '3' | 4 => '4'
  | 5 => '5' | 6 => '6' | 7 => '7' | 8 => '8' | 9 => '9'
  | _ => '*'

/-- Fuelled decimal rendering of a natural number (most significant digit
first); fuel `n` is always sufficient for value `n`. -/
def natStrAux : Nat → Nat → List Char
  | 0, _ => []
  | fuel + 1, n => if n = 0 then [] else natStrAux fuel (n / 10) ++ [digitChar10 (n % 10)]

/-- Model of Python `str(n)` for a natural number `n`. -/
def natStr (n : Nat) : String :=
  if n = 0 then "0" else ⟨natStrAux n n⟩

/-- Decimal re-interpretation of a digit list, used to invert `natStr`. -/
def parseDigits (l : List Char) : Nat :=
  l.foldl (fun a c => 10 * a + (c.toNat - 48)) 0

theorem digitChar10_isDigit {d : Nat} (h : d < 10) : (digitChar10 d).isDigit = true := by
  interval_cases d <;> decide

theorem digitChar10_toNat {d : Nat} (h : d < 10) : (digitChar10 d).toNat - 48 = d := by
  interval_cases d <;> decide

theorem natStrAux_zero (fuel : Nat) : natStrAux fuel 0 = [] := by
  cases fuel <;> simp [natStrAux]

theorem natStrAux_fuel {f₁ f₂ n : Nat} (h₁ : n ≤ f₁) (h₂ : n ≤ f₂) :
    natStrAux f₁ n = natStrAux f₂ n := by
  induction f₁ using Nat.strong_induction_on generalizing f₂ n with
  | _ f₁ ih =>
    match f₁, f₂ with
    | 0, f₂ =>
      have hn : n = 0 := Nat.le_zero.mp h₁
      subst hn
      simp [natStrAux_zero]
    | g₁ + 1, 0 =>
      have hn : n = 0 := Nat.le_zero.mp h₂
      subst hn
      simp [natStrAux_zero]
    | g₁ + 1, g₂ + 1 =>
      by_cases hn : n = 0
      · subst hn; simp [natStrAux]
      · have hd : n / 10 < n := Nat.div_lt_self (Nat.pos_of_ne_zero hn) (by norm_num)
        have hrec : natStrAux g₁ (n / 10) = natStrAux g₂ (n / 10) :=
          ih g₁ (Nat.lt_succ_self _) (by omega) (by omega)
        simp only [natStrAux, if_neg hn, hrec]

/-- The canonical digit-list representation of a positive number. -/
theorem natStrAux_eq {n : Nat} (h : 0 < n) :
    natStrAux n n = natStrAux (n / 10) (n / 10) ++ [digitChar10 (n % 10)] := by
  match n, h with
  | m + 1, _ =>
    have hd : (m + 1) / 10 < m + 1 := Nat.div_lt_self (Nat.succ_pos m) (by norm_num)
    have hfuel : natStrAux m ((m + 1) / 10) = natStrAux ((m + 1) / 10) ((m + 1) / 10) :=
      natStrAux_fuel (by omega) le_rfl
    simp only [natStrAux, if_neg (Nat.succ_ne_zero m), hfuel]

theorem parseDigits_append_digit (l : List Char) (c : Char) :
    parseDigits (l ++ [c]) = 10 * parseDigits l + (c.toNat - 48) := by
  simp [parseDigits, List.foldl_append]

theorem parseDigits_natStrAux {n : Nat} :
    parseDigits (natStrAux n n) = n := by
  induction n using Nat.strong_induction_on with
  | _ n ih =>
    by_cases hn : n = 0
    · subst hn; simp [natStrAux_zero, parseDigits]
    · rw [natStrAux_eq (Nat.pos_of_ne_zero hn), parseDigits_append_digit,
        ih (n / 10) (Nat.div_lt_self (Nat.pos_of_ne_zero hn) (by norm_num)),
        digitChar10_toNat (Nat.mod_lt _ (by norm_num))]
      omega

theorem natStrAux_ne_nil {n : Nat} (h : 0 < n) : natStrAux n n ≠ [] := by
  rw [natStrAux_eq h]; simp

theorem natStrAux_digits {n : Nat} {c : Char} (hc : c ∈ natStrAux n n) :
    c.isDigit = true := by
  induction n using Nat.strong_induction_on with
  | _ n ih =>
    by_cases hn : n = 0
    · subst hn; rw [natStrAux_zero] at hc; cases hc
    · rw [natStrAux_eq (Nat.pos_of_ne_zero hn)] at hc
      rcases List.mem_append.mp hc with h1 | h2
      · exact ih (n / 10) (Nat.div_lt_self (Nat.pos_of_ne_zero hn) (by norm_num)) h1
      · rcases List.mem_singleton.mp h2 with rfl
        exact digitChar10_isDigit (Nat.mod_lt _ (by norm_num))

theorem natStr_data_digits {n : Nat} {c : Char} (hc : c ∈ (natStr n).data) :
    c.isDigit = true := by
  unfold natStr at hc
  by_cases hn : n = 0
  · subst hn
    rw [if_pos rfl] at hc
    have h0 : ("0" : String).data = ['0'] := rfl
    rw [h0, List.mem_singleton] at hc
    subst hc; decide
  · simp only [if_neg hn] at hc
    exact natStrAux_digits hc

theorem natStr_data_ne_nil (n : Nat) : (natStr n).data ≠ [] := by
  unfold natStr
  by_cases hn : n = 0
  · simp [hn]
  · simp only [if_neg hn]
    exact natStrAux_ne_nil (Nat.pos_of_ne_zero hn)

theorem parseDigits_natStr (n : Nat) : parseDigits (natStr n).data = n := by
  unfold natStr
  by_cases hn : n = 0
  · simp [hn, parseDigits]
  · simp only [if_neg hn]
    exact parseDigits_natStrAux

theorem natStr_data_inj {a b : Nat} (h : (natStr a).data = (natStr b).data) : a = b := by
  have := parseDigits_natStr a
  rw [h, parseDigits_natStr] at this
  omega

theorem natStr_inj {a b : Nat} (h : natStr a = natStr b) : a = b :=
  natStr_data_inj (by rw [h])

/-- A character list that does not start with a decimal digit (or is empty):
the possible "tails" following a rendered index inside a sampling-tree id. -/
def ndStart : List Char → Prop
  | [] => True
  | c :: _ => c.isDigit = false

/-- Two all-digit blocks followed by non-digit-starting tails can only be
equal blockwise. -/
theorem digit_block_eq {d₁ d₂ r s : List Char}
    (hd₁ : ∀ c ∈ d₁, c.isDigit = true) (hd₂ : ∀ c ∈ d₂, c.isDigit = true)
    (hr : ndStart r) (hs : ndStart s) (h : d₁ ++ r = d₂ ++ s) :
    d₁ = d₂ ∧ r = s := by
  induction d₁ generalizing d₂ with
  | nil =>
    cases d₂ with
    | nil => exact ⟨rfl, h⟩
    | cons c t =>
      simp only [List.nil_append] at h
      subst h
      have := hd₂ c (by simp)
      simp [ndStart, this] at hr
  | cons c t ih =>
    cases d₂ with
    | nil =>
      simp only [List.nil_append] at h
      rw [← h] at hs
      have := hd₁ c (by simp)
      simp [ndStart, this] at hs
    | cons c' t' =>
      simp only [List.cons_append, List.cons.injEq] at h
      obtain ⟨rfl, h2⟩ := h
      obtain ⟨h3, h4⟩ := ih (fun x hx => hd₁ x (List.mem_cons_of_mem _ hx))
        (fun x hx => hd₂ x (List.mem_cons_of_mem _ hx)) h2
      exact ⟨by rw [h3], h4⟩

/-- The crux of id uniqueness: a rendered index determines itself and its
tail inside a concatenation. -/
theorem natStr_block_eq {a b : Nat} {r s : List Char}
    (hr : ndStart r) (hs : ndStart s)
    (h : (natStr a).data ++ r = (natStr b).data ++ s) :
    a = b ∧ r = s := by
  obtain ⟨h1, h2⟩ := digit_block_eq (fun c hc => natStr_data_digits hc)
    (fun c hc => natStr_data_digits hc) hr hs h
  exact ⟨natStr_data_inj h1, h2⟩

/-- The heterogeneous multigraph collaborator of `StellarGraphBase`:
nodes with their type label (the `self._node_type_attr` attribute), edges
`(n1, n2, rel)` with their relation label, and the directedness flag. -/
structure SGraph where
  nodes : List (NodeId × Label)
  edges : List (NodeId × NodeId × Label)
  directed : Bool

/-- `self.node[n][self._node_type_attr]`, `none` when `n` is not a node
(Python `KeyError`). -/
def nodeType (g : SGraph) (n : NodeId) : Option Label :=
  g.nodes.lookup n

/-- `sorted({ndata[attr] for n, ndata in self.nodes(data=True)})`. -/
def sg_node_types (g : SGraph) : List Label :=
  List.insertionSort strLe ((g.nodes.map Prod.snd).dedup)

/-- The edge-type registrations one edge contributes inside the
`for e in self.edges()` loop: the forward triple is filed under
`type(n1)`, and for an undirected graph the reverse triple is also filed
under `type(n2)`.  Each pair is `(bucket node type, registered triple)`. -/
def edgeReg (g : SGraph) (e : NodeId × NodeId × Label) : Option (List (Label × EdgeType)) := do
  let t1 ← nodeType g e.1
  let t2 ← nodeType g e.2.1
  pure ((t1, ⟨t1, e.2.2, t2⟩) :: (if g.directed then [] else [(t2, ⟨t2, e.2.2, t1⟩)]))

/-- All registrations of the edge loop, in loop order; `none` when some
edge endpoint is not a node of the graph. -/
def edgeRegistrations (g : SGraph) : Option (List (Label × EdgeType)) :=
  (g.edges.mapM (edgeReg g)).map List.flatten

/-- `edge_types = sorted(edge_types)` applied to the set of registered
triples. -/
def sg_edge_types (regs : List (Label × EdgeType)) : List EdgeType :=
  List.insertionSort etLe ((regs.map Prod.snd).dedup)

/-- The contents of the set `graph_schema[nt]` (as a duplicate-free list). -/
def bucketList (regs : List (Label × EdgeType)) (nt : Label) : List EdgeType :=
  ((regs.filter (fun r => r.1 == nt)).map Prod.snd).dedup

/-- `[edge_types[einx] for einx in sorted([edge_types.index(et) for et in
list(node_data)])]`: the bucket mapped to indices, sorted, mapped back. -/
def schemaOf (ets : List EdgeType) (regs : List (Label × EdgeType)) (nt : Label) :
    List EdgeType :=
  (List.insertionSort (fun a b => a ≤ b)
      ((bucketList regs nt).map (fun et => ets.indexOf et))).map
    (fun i => ets.getD i ⟨"", "", ""⟩)

/-- The derived, queryable schema object. -/
structure GraphSchema where
  node_types : List Label
  edge_types : List EdgeType
  schema : List (Label × List EdgeType)
  node_type_map : Option (List (NodeId × Nat))
  edge_type_map : Option (List ((NodeId × NodeId) × Nat))
deriving Repr, DecidableEq

/-- Model of the `edge_type_map` dict comprehension at the end of
`create_graph_schema`.  In the source the comprehension's key expression is
the bare variable `e`, which the comprehension does not bind: it is the
leftover loop variable of the earlier `for e in self.edges()` loop, i.e.
the last edge of the edge iteration.  Repeatedly assigning that one key
leaves a dictionary with a single entry, whose value is the index computed
for the last element of `self.edges(data=True)` (the same last edge).
With zero edges the comprehension body never runs and the dict is empty. -/
def buildEdgeTypeMap (g : SGraph) (node_types : List Label)
    (node_type_map : List (NodeId × Nat)) (edge_types : List EdgeType) :
    Option (List ((NodeId × NodeId) × Nat)) :=
  match g.edges.getLast? with
  | none => some []
  | some (n1, n2, rel) => do
      let i1 ← node_type_map.lookup n1
      let t1 ← node_types.get? i1
      let i2 ← node_type_map.lookup n2
      let t2 ← node_types.get? i2
      some [((n1, n2), edge_types.indexOf ⟨t1, rel, t2⟩)]

/-- `StellarGraphBase.create_graph_schema`.  Fails (`none`) when an edge
endpoint is not a node of the graph (Python `KeyError` during the edge
loop). -/
def create_graph_schema (g : SGraph) (create_type_maps : Bool) : Option GraphSchema := do
  let node_types := sg_node_types g
  let regs ← edgeRegistrations g
  let edge_types := sg_edge_types regs
  let schema := node_types.map (fun nt => (nt, schemaOf edge_types regs nt))
  if create_type_maps then
    let node_type_map := g.nodes.map (fun p => (p.1, node_types.indexOf p.2))
    let edge_type_map ← buildEdgeTypeMap g node_types node_type_map edge_types
    pure ⟨node_types, edge_types, schema, some node_type_map, some edge_type_map⟩
  else
    pure ⟨node_types, edge_types, schema, none, none⟩

/-- `GraphSchema.get_node_type`.  The source computes
`nt if index else self.node_types[index]`: in the `else` branch the list
is indexed by the boolean flag itself (Python `False == 0`), not by `nt`;
any exception (missing map, unknown node, empty `node_types`) is caught
and yields `None`. -/
def get_node_type (gs : GraphSchema) (node : NodeId) (index : Bool) : Option (Nat ⊕ Label) :=
  match gs.node_type_map with
  | none => none
  | some m =>
    match m.lookup node with
    | none => none
    | some nt =>
      if index then some (Sum.inl nt)
      else
        match gs.node_types.get? 0 with
        | some l => some (Sum.inr l)
        | none => none

/-- Python list indexing `l[i]` for an `int` index: negative indices count
from the end; an out-of-range index raises (modelled as `none`, matching
the `except` clauses of the lookup helpers). -/
def pyGet {α : Type} (l : List α) (i : Int) : Option α :=
  let j : Int := if i < 0 then (l.length : Int) + i else i
  if 0 ≤ j ∧ j < (l.length : Int) then l.get? j.toNat else none

/-- `GraphSchema.node_index_to_key`. -/
def node_index_to_key (gs : GraphSchema) (i : Int) : Option Label :=
  pyGet gs.node_types i

/-- `GraphSchema.edge_index_to_key`. -/
def edge_index_to_key (gs : GraphSchema) (i : Int) : Option EdgeType :=
  pyGet gs.edge_types i

theorem pyGet_neg {α : Type} (l : List α) (i : Int)
    (h0 : i < 0) (h1 : -(l.length : Int) ≤ i) :
    pyGet l i = l.get? (((l.length : Int) + i).toNat) := by
  unfold pyGet
  rw [if_pos h0, if_pos (by omega)]

theorem pyGet_none_iff {α : Type} (l : List α) (i : Int) :
    pyGet l i = none ↔ ((l.length : Int) ≤ i ∨ i < -(l.length : Int)) := by
  unfold pyGet
  by_cases h0 : i < 0
  · rw [if_pos h0]
    by_cases h1 : -(l.length : Int) ≤ i
    · rw [if_pos (by omega)]
      have hlt : ((l.length : Int) + i).toNat < l.length := by omega
      constructor
      · intro h
        rw [List.get?_eq_none] at h
        omega
      · intro h
        omega
    · rw [if_neg (by omega)]
      constructor
      · intro _
        omega
      · intro _
        rfl
  · rw [if_neg h0]
    by_cases h2 : (l.length : Int) ≤ i
    · rw [if_neg (by omega)]
      exact ⟨fun _ => Or.inl h2, fun _ => rfl⟩
    · rw [if_pos (by omega)]
      have hlt : i.toNat < l.length := by omega
      constructor
      · intro h
        rw [List.get?_eq_none] at h
        omega
      · intro h
        omega

/-- A node of the nested sampling tree produced by `get_sampling_tree`:
`(unique_id, edge_type, children)`. -/
inductive STree where
  | node (id : String) (et : EdgeType) (children : List STree)
deriving Repr

/-- The `schema` attribute as consumed by the generators (a dict from node
type to its ordered outgoing edge types). -/
abbrev SchemaMap := List (Label × List EdgeType)

/-- One entry of the flat adjacency list: `(node_type, [children])`. -/
abbrev Entry := Label × List Nat

/-- One work-queue item of `get_type_adjacency_list`:
`(node_type, node_index, level)`. -/
abbrev QItem := Label × Nat × Nat

/-- `gen_key(key, ii)` of the source (a single argument, so the join is
just `str(ii)`). -/
def gen_key (key : String) (i : Nat) : String := key ++ natStr i

mutual

/-- `get_neighbor_types(node_type, level, key)` inside
`get_sampling_tree`; accessing `self.schema[node_type]` for an unknown
node type raises `KeyError`, modelled as `.error`. -/
def get_neighbor_types (sch : SchemaMap) : Label → Nat → String → Except String (List STree)
  | _, 0, _ => .ok []
  | nt, level + 1, key =>
    match sch.lookup nt with
    | none => .error ("KeyError: " ++ nt)
    | some ets => neighborList sch ets 0 level key
termination_by nt level key => (level, 0)

/-- The enumerated list comprehension of `get_neighbor_types`, carrying
the running enumeration index `ii`; each element pairs
`gen_key(key, ii)` with its edge type and the recursive subtree built
with prefix `gen_key(key, ii) + "_"`. -/
def neighborList (sch : SchemaMap) :
    List EdgeType → Nat → Nat → String → Except String (List STree)
  | [], _, _, _ => .ok []
  | et :: rest, ii, level, key => do
    let sub ← get_neighbor_types sch et.n2 level (gen_key key ii ++ "_")
    let others ← neighborList sch rest (ii + 1) level key
    pure (STree.node (gen_key key ii) et sub :: others)
termination_by ets ii level key => (level, ets.length + 1)

end

/-- The enumerated root comprehension of `get_sampling_tree`: root `jj`
is `(str(jj), node_type, get_neighbor_types(node_type, n_hops,
gen_key("", jj) + "#"))`. -/
def rootList (sch : SchemaMap) :
    List Label → Nat → Nat → Except String (List (String × Label × List STree))
  | [], _, _ => .ok []
  | hn :: rest, jj, n_hops => do
    let sub ← get_neighbor_types sch hn n_hops (gen_key "" jj ++ "#")
    let others ← rootList sch rest (jj + 1) n_hops
    pure ((natStr jj, hn, sub) :: others)

/-- `GraphSchema.get_sampling_tree`. -/
def get_sampling_tree (sch : SchemaMap) (head_node_types : List Label) (n_hops : Nat) :
    Except String (List (String × Label × List STree)) :=
  rootList sch head_node_types 0 n_hops

/-- `clist[ninx][1].append(cinx)`: append one child index to the entry at
`ninx` (the index is always in range in the source; out of range is a
no-op here). -/
def appendChild (clist : List Entry) (ninx cinx : Nat) : List Entry :=
  match clist.get? ninx with
  | some (t, cs) => clist.set ninx (t, cs ++ [cinx])
  | none => clist

/-- The inner `for et in ets` loop of `get_type_adjacency_list`: append a
fresh entry for the edge type's target, record its index as a child of
`ninx`, and enqueue it when `n_hops > lvl + 1`. -/
def expand (n_hops : Int) :
    List EdgeType → Nat → Nat → List Entry → List QItem → List Entry × List QItem
  | [], _, _, clist, q => (clist, q)
  | et :: rest, ninx, lvl, clist, q =>
    let cinx := clist.length
    let clist1 := clist ++ [(et.n2, ([] : List Nat))]
    let clist2 := appendChild clist1 ninx cinx
    let q1 := if ((lvl : Int) + 1) < n_hops then q ++ [(et.n2, cinx, lvl + 1)] else q
    expand n_hops rest ninx lvl clist2 q1

/-- Largest bucket length of the schema, used only as a termination bound
for the work-queue loop. -/
def maxBucket (sch : SchemaMap) : Nat :=
  (sch.map (fun p => p.2.length)).foldr max 0

/-- Termination weight of a queue item: items deeper in the hop budget
weigh exponentially less. -/
def qWeight (n_hops : Int) (B : Nat) (it : QItem) : Nat :=
  (B + 1) ^ (n_hops.toNat - it.2.2)

/-- Termination measure of the whole work queue. -/
def qMeasure (n_hops : Int) (B : Nat) (q : List QItem) : Nat :=
  (q.map (qWeight n_hops B)).sum

theorem lookup_length_le_maxBucket {sch : SchemaMap} {nt : Label} {ets : List EdgeType}
    (h : sch.lookup nt = some ets) : ets.length ≤ maxBucket sch := by
  induction sch with
  | nil => simp [List.lookup] at h
  | cons p rest ih =>
    rw [List.lookup] at h
    split at h
    · cases h
      simp only [maxBucket, List.map_cons, List.foldr_cons]
      exact Nat.le_max_left _ _
    · have := ih h
      simp only [maxBucket, List.map_cons, List.foldr_cons]
      exact le_trans this (Nat.le_max_right _ _)

theorem sum_map_const {α : Type} (l : List α) (f : α → Nat) (w : Nat)
    (h : ∀ x ∈ l, f x = w) : (l.map f).sum = l.length * w := by
  induction l with
  | nil => simp
  | cons a t ih =>
    simp only [List.map_cons, List.sum_cons, List.length_cons, h a (by simp)]
    rw [ih (fun x hx => h x (List.mem_cons_of_mem _ hx))]
    ring

/-- The queue component of `expand`, in closed form (it does not depend on
the children bookkeeping; `cinx` values are successive list lengths). -/
theorem expand_q (n_hops : Int) (ets : List EdgeType) (ninx lvl : Nat)
    (clist : List Entry) (q : List QItem) :
    (expand n_hops ets ninx lvl clist q).2 =
      q ++ (if ((lvl : Int) + 1) < n_hops then
        (ets.zip (List.range' clist.length ets.length)).map (fun p => (p.1.n2, p.2, lvl + 1))
      else []) := by
  induction ets generalizing clist q with
  | nil => simp [expand]
  | cons et rest ih =>
    have hstep : (expand n_hops (et :: rest) ninx lvl clist q).2
        = (expand n_hops rest ninx lvl
            (appendChild (clist ++ [(et.n2, ([] : List Nat))]) ninx clist.length)
            (if ((lvl : Int) + 1) < n_hops then q ++ [(et.n2, clist.length, lvl + 1)]
             else q)).2 := rfl
    have hlen : (appendChild (clist ++ [(et.n2, ([] : List Nat))]) ninx clist.length).length
        = clist.length + 1 := by
      unfold appendChild
      cases hg : (clist ++ [(et.n2, ([] : List Nat))]).get? ninx with
      | none => simp
      | some pr =>
        cases pr
        simp
    rw [hstep, ih, hlen]
    by_cases hguard : ((lvl : Int) + 1) < n_hops
    · rw [if_pos hguard, if_pos hguard, if_pos hguard]
      rw [List.length_cons, List.range'_succ, List.zip_cons_cons, List.map_cons]
      simp
    · rw [if_neg hguard, if_neg hguard, if_neg hguard]

theorem qMeasure_append (n_hops : Int) (B : Nat) (q₁ q₂ : List QItem) :
    qMeasure n_hops B (q₁ ++ q₂) = qMeasure n_hops B q₁ + qMeasure n_hops B q₂ := by
  simp [qMeasure]

theorem qMeasure_cons (n_hops : Int) (B : Nat) (it : QItem) (q : List QItem) :
    qMeasure n_hops B (it :: q) = qWeight n_hops B it + qMeasure n_hops B q := by
  simp [qMeasure]

theorem qMeasure_expand_lt (n_hops : Int) (B : Nat) (ets : List EdgeType)
    (hB : ets.length ≤ B) (nt : Label) (ninx lvl : Nat) (clist : List Entry)
    (rest : List QItem) :
    qMeasure n_hops B (expand n_hops ets ninx lvl clist rest).2
      < qMeasure n_hops B ((nt, ninx, lvl) :: rest) := by
  rw [expand_q, qMeasure_append, qMeasure_cons]
  have hkey : qMeasure n_hops B (if ((lvl : Int) + 1) < n_hops then
      (ets.zip (List.range' clist.length ets.length)).map (fun p => (p.1.n2, p.2, lvl + 1))
    else []) < qWeight n_hops B (nt, ninx, lvl) := by
    show _ < (B + 1) ^ (n_hops.toNat - lvl)
    by_cases hguard : ((lvl : Int) + 1) < n_hops
    · rw [if_pos hguard]
      have hlvl : lvl + 1 ≤ n_hops.toNat := by omega
      have hw : ∀ x ∈ (ets.zip (List.range' clist.length ets.length)).map
          (fun p => (p.1.n2, p.2, lvl + 1)), qWeight n_hops B x
            = (B + 1) ^ (n_hops.toNat - (lvl + 1)) := by
        intro x hx
        rcases List.mem_map.mp hx with ⟨p, _, rfl⟩
        rfl
      have hpos : 0 < (B + 1) ^ (n_hops.toNat - (lvl + 1)) := pow_pos (by omega) _
      have hlen : ((ets.zip (List.range' clist.length ets.length)).map
          (fun p => (p.1.n2, p.2, lvl + 1))).length ≤ B := by
        rw [List.length_map, List.length_zip, List.length_range']
        omega
      have hexp : n_hops.toNat - lvl = (n_hops.toNat - (lvl + 1)) + 1 := by omega
      unfold qMeasure
      rw [sum_map_const _ _ _ hw, hexp, pow_succ]
      have hstep1 : ((ets.zip (List.range' clist.length ets.length)).map
            (fun p => (p.1.n2, p.2, lvl + 1))).length * (B + 1) ^ (n_hops.toNat - (lvl + 1))
          ≤ B * (B + 1) ^ (n_hops.toNat - (lvl + 1)) :=
        Nat.mul_le_mul_right _ hlen
      have hstep2 : B * (B + 1) ^ (n_hops.toNat - (lvl + 1))
          < (B + 1) ^ (n_hops.toNat - (lvl + 1)) * (B + 1) := by
        rw [Nat.mul_succ, Nat.mul_comm ((B + 1) ^ (n_hops.toNat - (lvl + 1))) B]
        omega
      omega
    · rw [if_neg hguard]
      show qMeasure n_hops B [] < _
      rw [show qMeasure n_hops B [] = 0 by simp [qMeasure]]
      exact pow_pos (by omega) _
  omega

/-- The `while not to_process.empty()` loop of `get_type_adjacency_list`:
FIFO queue processing; popping an item looks up its node type's bucket
(`KeyError` for an unknown type) and expands it. -/
def processQueue (sch : SchemaMap) (n_hops : Int) : List QItem → List Entry → Except String (List Entry)
  | [], clist => .ok clist
  | (nt, ninx, lvl) :: rest, clist =>
    if hkey : (sch.lookup nt).isSome then
      let ets := (sch.lookup nt).get hkey
      let p := expand n_hops ets ninx lvl clist rest
      processQueue sch n_hops p.2 p.1
    else .error ("KeyError: " ++ nt)
termination_by q _ => qMeasure n_hops (maxBucket sch) q
decreasing_by
  exact qMeasure_expand_lt n_hops (maxBucket sch) _
    (lookup_length_le_maxBucket (Option.eq_some_of_isSome hkey)) nt ninx lvl clist rest

/-- `GraphSchema.get_type_adjacency_list`: one entry per head occurrence,
queue seeded (only when `n_hops > 0`) with `(head, its index, level 0)`. -/
def get_type_adjacency_list (sch : SchemaMap) (head_node_types : List Label) (n_hops : Int) :
    Except String (List Entry) :=
  let clist := head_node_types.map (fun hn => (hn, ([] : List Nat)))
  let q := if 0 < n_hops then head_node_types.enum.map (fun p => (p.2, p.1, 0)) else []
  processQueue sch n_hops q clist

theorem processQueue_nil (sch : SchemaMap) (n_hops : Int) (clist : List Entry) :
    processQueue sch n_hops [] clist = .ok clist := by
  simp [processQueue]

theorem processQueue_cons_key {sch : SchemaMap} {nt : Label} (n_hops : Int)
    (ninx lvl : Nat) (rest : List QItem) (clist : List Entry)
    (hkey : (sch.lookup nt).isSome = true) :
    processQueue sch n_hops ((nt, ninx, lvl) :: rest) clist
      = processQueue sch n_hops
          (expand n_hops ((sch.lookup nt).get hkey) ninx lvl clist rest).2
          (expand n_hops ((sch.lookup nt).get hkey) ninx lvl clist rest).1 := by
  rw [processQueue]
  rw [dif_pos hkey]

theorem processQueue_cons_err {sch : SchemaMap} {nt : Label} (n_hops : Int)
    (ninx lvl : Nat) (rest : List QItem) (clist : List Entry)
    (hkey : ¬ (sch.lookup nt).isSome = true) :
    processQueue sch n_hops ((nt, ninx, lvl) :: rest) clist
      = .error ("KeyError: " ++ nt) := by
  rw [processQueue]
  rw [dif_neg hkey]

theorem get_neighbor_types_unknown {sch : SchemaMap} {nt : Label}
    (hmiss : sch.lookup nt = none) {n : Nat} (hn : 1 ≤ n) (key : String) :
    get_neighbor_types sch nt n key = .error ("KeyError: " ++ nt) := by
  match n, hn with
  | m + 1, _ =>
    rw [get_neighbor_types]
    rw [hmiss]

/-- A root comprehension over a head list containing an unknown node type
produces an error (for positive depth). -/
theorem rootList_err {sch : SchemaMap} {n : Nat} (hn : 1 ≤ n) :
    ∀ (heads : List Label) (jj : Nat), (∃ h ∈ heads, sch.lookup h = none) →
      ∃ msg, rootList sch heads jj n = .error msg := by
  intro heads
  induction heads with
  | nil =>
    rintro jj ⟨h, hh, _⟩
    cases hh
  | cons h0 rest ih =>
    rintro jj ⟨h, hh, hmiss⟩
    cases hr : get_neighbor_types sch h0 n (gen_key "" jj ++ "#") with
    | error msg =>
      refine ⟨msg, ?_⟩
      rw [rootList, hr]
      rfl
    | ok sub =>
      rcases List.mem_cons.mp hh with rfl | hmem
      · rw [get_neighbor_types_unknown hmiss hn] at hr
        cases hr
      · obtain ⟨msg, hmsg⟩ := ih (jj + 1) ⟨h, hmem, hmiss⟩
        refine ⟨msg, ?_⟩
        rw [rootList, hr]
        show (rootList sch rest (jj + 1) n).bind _ = _
        rw [hmsg]
        rfl

/-- The work-queue loop errors whenever some queued item's node type is
unknown to the schema (proved by induction on the queue measure). -/
theorem processQueue_err {sch : SchemaMap} {n_hops : Int} :
    ∀ (fuel : Nat) (q : List QItem) (clist : List Entry),
      qMeasure n_hops (maxBucket sch) q ≤ fuel →
      (∃ it ∈ q, sch.lookup it.1 = none) →
      ∃ msg, processQueue sch n_hops q clist = .error msg := by
  intro fuel
  induction fuel with
  | zero =>
    rintro q clist hm ⟨it, hit, _⟩
    have h1 : qWeight n_hops (maxBucket sch) it ≤ qMeasure n_hops (maxBucket sch) q :=
      List.single_le_sum (fun x _ => Nat.zero_le x) _ (List.mem_map_of_mem _ hit)
    have h2 : 0 < qWeight n_hops (maxBucket sch) it := pow_pos (by omega) _
    omega
  | succ f ih =>
    rintro q clist hm ⟨it, hit, hmiss⟩
    match q, hit with
    | (nt, ninx, lvl) :: rest, hit =>
      by_cases hkey : (sch.lookup nt).isSome = true
      · have hlt := qMeasure_expand_lt n_hops (maxBucket sch)
          ((sch.lookup nt).get hkey)
          (lookup_length_le_maxBucket (Option.some_get hkey).symm) nt ninx lvl clist rest
        have hbad : ∃ x ∈ (expand n_hops ((sch.lookup nt).get hkey) ninx lvl clist rest).2,
            sch.lookup x.1 = none := by
          rcases List.mem_cons.mp hit with heq | hmem
          · exfalso
            rw [heq] at hmiss
            rw [hmiss] at hkey
            cases hkey
          · refine ⟨it, ?_, hmiss⟩
            rw [expand_q]
            exact List.mem_append_left _ hmem
        obtain ⟨msg, hmsg⟩ := ih _ _ (by rw [qMeasure_cons] at hm hlt; omega) hbad
        refine ⟨msg, ?_⟩
        rw [processQueue_cons_key n_hops ninx lvl rest clist hkey]
        exact hmsg
      · exact ⟨_, processQueue_cons_err n_hops ninx lvl rest clist hkey⟩

/-- C3 (amended): there is no depth validation.  For `n_hops ≤ 0` the
adjacency generator seeds no work queue at all and returns the bare head
entries as a normal, non-error result (identical to `n_hops = 0`). -/
theorem adjacency_nonpositive_depth (sch : SchemaMap) (heads : List Label) (n : Int)
    (hn : n ≤ 0) :
    get_type_adjacency_list sch heads n = .ok (heads.map (fun h => (h, []))) := by
  unfold get_type_adjacency_list
  rw [if_neg (by omega)]
  exact processQueue_nil sch n _

/-- Witness: for `n_hops = -1` the adjacency generator returns the head
entries unchanged. -/
theorem adjacency_nonpositive_depth_witness :
    get_type_adjacency_list [("A", [⟨"A", "r", "A"⟩])] ["A"] (-1)
      = Except.ok [("A", ([] : List Nat))] :=
  adjacency_nonpositive_depth [("A", [⟨"A", "r", "A"⟩])] ["A"] (-1) (by omega)

/-- C3 counterexample: `n_hops = -1` is not rejected: the adjacency
generator returns a normal result, never an `InvalidDepth`-style error. -/
theorem negative_depth_not_rejected :
    get_type_adjacency_list [("B", [⟨"B", "s", "B"⟩])] ["B"] (-1)
        = Except.ok [("B", ([] : List Nat))] ∧
      ∀ msg, get_type_adjacency_list [("B", [⟨"B", "s", "B"⟩])] ["B"] (-1)
        ≠ Except.error msg := by
  constructor
  · simp [get_type_adjacency_list, processQueue]
  · intro msg h
    simp [get_type_adjacency_list, processQueue] at h

/-- C5 (amended): for `n_hops ≥ 1`, a head node type absent from the
schema makes both generators fail with a `KeyError` (fatal, no structure
returned). -/
theorem unknown_head_type_raises (sch : SchemaMap) (heads : List Label) (n : Nat)
    (h : Label) (hmem : h ∈ heads) (hmiss : sch.lookup h = none) (hn : 1 ≤ n) :
    (∃ msg, get_sampling_tree sch heads n = .error msg) ∧
    (∃ msg, get_type_adjacency_list sch heads (n : Int) = .error msg) := by
  constructor
  · exact rootList_err hn heads 0 ⟨h, hmem, hmiss⟩
  · unfold get_type_adjacency_list
    rw [if_pos (by omega)]
    apply processQueue_err (qMeasure (n : Int) (maxBucket sch) _) _ _ le_rfl
    obtain ⟨i, hi⟩ := List.get?_of_mem hmem
    refine ⟨(h, i, 0), ?_, hmiss⟩
    exact List.mem_map_of_mem _ (List.mk_mem_enum_iff_get?.mpr hi)

/-- Witness: unknown head type `Z` with `n_hops = 1` errors in both
generators. -/
theorem unknown_head_type_raises_witness :
    (∃ msg, get_sampling_tree [] ["Z"] 1 = .error msg) ∧
    (∃ msg, get_type_adjacency_list [] ["Z"] (1 : Nat) = .error msg) :=
  unknown_head_type_raises [] ["Z"] 1 "Z" (by simp) rfl (by omega)

/-- C5 counterexample: with `n_hops = 0` an unknown head type is silently
accepted — both generators return a normal degenerate structure instead of
reporting a fatal error. -/
theorem unknown_head_type_silent_at_zero :
    get_sampling_tree [] ["Z"] 0 = Except.ok [("0", "Z", ([] : List STree))] ∧
    get_type_adjacency_list [] ["Z"] 0 = Except.ok [("Z", ([] : List Nat))] := by
  constructor
  · show rootList [] ["Z"] 0 0 = _
    rw [rootList, get_neighbor_types]
    rw [rootList]
    rfl
  · simp [get_type_adjacency_list, processQueue]

theorem lookup_mem {α β : Type} [BEq α] [LawfulBEq α] :
    ∀ {l : List (α × β)} {a : α} {b : β}, l.lookup a = some b → (a, b) ∈ l := by
  intro l
  induction l with
  | nil =>
    intro a b h
    simp [List.lookup] at h
  | cons p t ih =>
    intro a b h
    obtain ⟨k, v⟩ := p
    rw [List.lookup] at h
    by_cases hab : (a == k) = true
    · simp only [hab] at h
      cases h
      have ha : a = k := eq_of_beq hab
      subst ha
      exact List.mem_cons_self _ _
    · simp only [eq_false_of_ne_true hab] at h
      exact List.mem_cons_of_mem _ (ih h)

theorem lookup_map_pair {α β : Type} [BEq α] [LawfulBEq α] (f : α → β) :
    ∀ (l : List α) (a : α), a ∈ l → (l.map (fun x => (x, f x))).lookup a = some (f a) := by
  intro l
  induction l with
  | nil =>
    intro a ha
    cases ha
  | cons x t ih =>
    intro a ha
    rw [List.map_cons, List.lookup]
    by_cases hax : (a == x) = true
    · simp only [hax]
      rw [eq_of_beq hax]
    · simp only [eq_false_of_ne_true hax]
      rcases List.mem_cons.mp ha with rfl | hmem
      · rw [beq_self_eq_true] at hax
        cases hax rfl
      · exact ih a hmem

/-- Membership in the flattened result of an `Option`-valued `mapM`. -/
theorem mapM_flatten_mem {α β : Type} (f : α → Option (List β)) :
    ∀ (l : List α) (yss : List (List β)), l.mapM f = some yss →
      ∀ x, (x ∈ yss.flatten ↔ ∃ e ∈ l, ∃ ys, f e = some ys ∧ x ∈ ys) := by
  intro l
  induction l with
  | nil =>
    intro yss h x
    rw [List.mapM_nil] at h
    cases h
    simp
  | cons e t ih =>
    intro yss h x
    rw [List.mapM_cons] at h
    cases hf : f e with
    | none =>
      rw [hf] at h
      simp at h
    | some ys =>
      rw [hf] at h
      cases hm : t.mapM f with
      | none =>
        rw [hm] at h
        simp at h
      | some rest =>
        rw [hm] at h
        simp at h
        subst h
        simp only [List.flatten_cons, List.mem_append]
        constructor
        · rintro (hx | hx)
          · exact ⟨e, by simp, ys, hf, hx⟩
          · obtain ⟨e', he', ys', hf', hx'⟩ := (ih rest hm x).mp hx
            exact ⟨e', by simp [he'], ys', hf', hx'⟩
        · rintro ⟨e', he', ys', hf', hx'⟩
          rcases List.mem_cons.mp he' with rfl | hmem
          · rw [hf] at hf'
            cases hf'
            exact Or.inl hx'
          · exact Or.inr ((ih rest hm x).mpr ⟨e', hmem, ys', hf', hx'⟩)

theorem edgeRegistrations_mem {g : SGraph} {regs : List (Label × EdgeType)}
    (h : edgeRegistrations g = some regs) (x : Label × EdgeType) :
    x ∈ regs ↔ ∃ e ∈ g.edges, ∃ ys, edgeReg g e = some ys ∧ x ∈ ys := by
  unfold edgeRegistrations at h
  cases hm : g.edges.mapM (edgeReg g) with
  | none =>
    rw [hm] at h
    cases h
  | some yss =>
    rw [hm] at h
    simp at h
    subst h
    exact mapM_flatten_mem (edgeReg g) g.edges yss hm x

/-- Every registration files a triple under the triple's own source type. -/
theorem edgeReg_src {g : SGraph} {e : NodeId × NodeId × Label}
    {ys : List (Label × EdgeType)} (h : edgeReg g e = some ys) :
    ∀ x ∈ ys, x.1 = x.2.n1 := by
  unfold edgeReg at h
  cases h1 : nodeType g e.1 with
  | none =>
    rw [h1] at h
    cases h
  | some t1 =>
    rw [h1] at h
    cases h2 : nodeType g e.2.1 with
    | none =>
      rw [h2] at h
      cases h
    | some t2 =>
      rw [h2] at h
      simp at h
      subst h
      intro x hx
      rcases List.mem_cons.mp hx with rfl | hx2
      · rfl
      · by_cases hd : g.directed = true
        · rw [if_pos hd] at hx2
          cases hx2
        · rw [if_neg hd] at hx2
          rcases List.mem_singleton.mp hx2 with rfl
          rfl

theorem regs_src {g : SGraph} {regs : List (Label × EdgeType)}
    (h : edgeRegistrations g = some regs) : ∀ x ∈ regs, x.1 = x.2.n1 := by
  intro x hx
  obtain ⟨e, _, ys, hys, hxys⟩ := (edgeRegistrations_mem h x).mp hx
  exact edgeReg_src hys x hxys

theorem sg_edge_types_mem (regs : List (Label × EdgeType)) (t : EdgeType) :
    t ∈ sg_edge_types regs ↔ t ∈ regs.map Prod.snd := by
  unfold sg_edge_types
  rw [(List.perm_insertionSort _ _).mem_iff, List.mem_dedup]

theorem sg_edge_types_nodup (regs : List (Label × EdgeType)) :
    (sg_edge_types regs).Nodup :=
  (List.perm_insertionSort _ _).nodup_iff.mpr (List.nodup_dedup _)

theorem bucketList_mem {regs : List (Label × EdgeType)}
    (hsrc : ∀ x ∈ regs, x.1 = x.2.n1) (nt : Label) (t : EdgeType) :
    t ∈ bucketList regs nt ↔ (t ∈ regs.map Prod.snd ∧ t.n1 = nt) := by
  unfold bucketList
  rw [List.mem_dedup, List.mem_map]
  constructor
  · rintro ⟨pair, hpair, rfl⟩
    have hf := List.mem_filter.mp hpair
    refine ⟨List.mem_map.mpr ⟨pair, hf.1, rfl⟩, ?_⟩
    rw [← hsrc pair hf.1]
    exact eq_of_beq hf.2
  · rintro ⟨hmem, hn1⟩
    obtain ⟨pair, hp, rfl⟩ := List.mem_map.mp hmem
    refine ⟨pair, List.mem_filter.mpr ⟨hp, ?_⟩, rfl⟩
    rw [hsrc pair hp]
    exact beq_iff_eq.mpr hn1

/-- Mapping a duplicate-free index selection back through `getD`, after
sorting, yields exactly the filtered list. -/
theorem range_filter_map_getD {α : Type} (p : α → Bool) (d : α) :
    ∀ (L : List α), ((List.range L.length).filter (fun i => p (L.getD i d))).map
      (fun i => L.getD i d) = L.filter p := by
  intro L
  induction L with
  | nil => simp
  | cons a t ih =>
    rw [List.length_cons, List.range_succ_eq_map, List.filter_cons]
    have hcomp : (fun i => p ((a :: t).getD i d)) ∘ Nat.succ = fun i => p (t.getD i d) := by
      funext i
      simp [Function.comp]
    by_cases hpa : p ((a :: t).getD 0 d) = true
    · rw [if_pos hpa, List.map_cons, List.filter_map, hcomp, List.map_map]
      have hegd : (fun i => (a :: t).getD i d) ∘ Nat.succ = fun i => t.getD i d := by
        funext i
        simp
      rw [hegd, ih]
      rw [List.filter_cons, if_pos (by simpa using hpa)]
      simp
    · rw [if_neg hpa, List.filter_map, hcomp, List.map_map]
      have hegd : (fun i => (a :: t).getD i d) ∘ Nat.succ = fun i => t.getD i d := by
        funext i
        simp
      rw [hegd, ih]
      rw [List.filter_cons, if_neg (by simpa using hpa)]

/-- Core combinatorial fact behind the `schema` construction: mapping a
set of positions of a duplicate-free list through `index`, sorting the
positions, and reading the list back gives the subsequence of the list
satisfying the membership predicate, in list order. -/
theorem sorted_index_map_filter {α : Type} [DecidableEq α] (L S : List α) (d : α)
    (p : α → Bool) (hL : L.Nodup) (hS : S.Nodup)
    (hmem : ∀ x, x ∈ S ↔ (x ∈ L ∧ p x = true)) :
    (List.insertionSort (fun a b => a ≤ b) (S.map (fun x => L.indexOf x))).map
      (fun i => L.getD i d) = L.filter p := by
  have hInodup : (S.map (fun x => L.indexOf x)).Nodup := by
    refine List.Nodup.map_on ?_ hS
    intro x hx y hy hxy
    exact (List.indexOf_inj ((hmem x).mp hx).1 ((hmem y).mp hy).1).mp hxy
  have hImem : ∀ i, i ∈ S.map (fun x => L.indexOf x) ↔
      (i < L.length ∧ p (L.getD i d) = true) := by
    intro i
    constructor
    · intro hi
      obtain ⟨x, hx, rfl⟩ := List.mem_map.mp hi
      obtain ⟨hxL, hpx⟩ := (hmem x).mp hx
      have hlt : L.indexOf x < L.length := List.indexOf_lt_length.mpr hxL
      refine ⟨hlt, ?_⟩
      rw [List.getD_eq_getElem _ _ hlt, List.getElem_indexOf hlt]
      exact hpx
    · rintro ⟨hlt, hp⟩
      rw [List.getD_eq_getElem _ _ hlt] at hp
      refine List.mem_map.mpr ⟨L[i], (hmem _).mpr ⟨List.getElem_mem hlt, hp⟩, ?_⟩
      exact List.indexOf_getElem hL i hlt
  have hRnodup : ((List.range L.length).filter (fun i => p (L.getD i d))).Nodup :=
    (List.nodup_range _).filter _
  have hRsorted : List.Sorted (fun a b => a ≤ b)
      ((List.range L.length).filter (fun i => p (L.getD i d))) :=
    ((List.pairwise_lt_range _).filter _).imp Nat.le_of_lt
  have hperm : List.Perm (List.insertionSort (fun a b => a ≤ b) (S.map (fun x => L.indexOf x)))
      ((List.range L.length).filter (fun i => p (L.getD i d))) := by
    rw [List.perm_ext_iff_of_nodup
      ((List.perm_insertionSort _ _).nodup_iff.mpr hInodup) hRnodup]
    intro i
    rw [(List.perm_insertionSort _ _).mem_iff, hImem, List.mem_filter, List.mem_range]
  have heq := List.eq_of_perm_of_sorted hperm (List.sorted_insertionSort _ _) hRsorted
  rw [heq]
  exact range_filter_map_getD p d L

/-- `schemaOf` is the subsequence of `edge_types` with the given source
type, in `edge_types` order. -/
theorem schemaOf_eq_filter {g : SGraph} {regs : List (Label × EdgeType)}
    (hreg : edgeRegistrations g = some regs) (nt : Label) :
    schemaOf (sg_edge_types regs) regs nt
      = (sg_edge_types regs).filter (fun et => et.n1 == nt) := by
  have hmem : ∀ x, x ∈ bucketList regs nt ↔
      (x ∈ sg_edge_types regs ∧ (x.n1 == nt) = true) := by
    intro x
    rw [bucketList_mem (regs_src hreg) nt x, sg_edge_types_mem]
    constructor
    · rintro ⟨h1, h2⟩
      exact ⟨h1, beq_iff_eq.mpr h2⟩
    · rintro ⟨h1, h2⟩
      exact ⟨h1, eq_of_beq h2⟩
  exact sorted_index_map_filter (sg_edge_types regs) (bucketList regs nt) ⟨"", "", ""⟩
    (fun et => et.n1 == nt) (sg_edge_types_nodup regs) (List.nodup_dedup _) hmem

/-- Unpacking a successful run of the schema builder. -/
theorem create_graph_schema_parts {g : SGraph} {b : Bool} {gs : GraphSchema}
    (h : create_graph_schema g b = some gs) :
    ∃ regs, edgeRegistrations g = some regs ∧
      gs.node_types = sg_node_types g ∧
      gs.edge_types = sg_edge_types regs ∧
      gs.schema = (sg_node_types g).map
        (fun nt => (nt, schemaOf (sg_edge_types regs) regs nt)) := by
  unfold create_graph_schema at h
  cases hreg : edgeRegistrations g with
  | none =>
    rw [hreg] at h
    cases h
  | some regs =>
    rw [hreg] at h
    refine ⟨regs, rfl, ?_⟩
    simp only [Option.pure_def, Option.bind_eq_bind, Option.some_bind] at h
    cases b with
    | false =>
      simp only [Bool.false_eq_true, if_neg] at h
      cases h
      exact ⟨rfl, rfl, rfl⟩
    | true =>
      simp only [if_pos] at h
      cases hm : buildEdgeTypeMap g (sg_node_types g)
          (g.nodes.map (fun p => (p.1, (sg_node_types g).indexOf p.2)))
          (sg_edge_types regs) with
      | none =>
        rw [hm] at h
        cases h
      | some etm =>
        rw [hm] at h
        cases h
        exact ⟨rfl, rfl, rfl⟩

/-- Append `extra` to the child list of entry `i` (no-op out of range). -/
def setChildren (clist : List Entry) (i : Nat) (extra : List Nat) : List Entry :=
  match clist.get? i with
  | some en => clist.set i (en.1, en.2 ++ extra)
  | none => clist

theorem setChildren_length (clist : List Entry) (i : Nat) (extra : List Nat) :
    (setChildren clist i extra).length = clist.length := by
  unfold setChildren
  cases clist.get? i with
  | none => rfl
  | some en => simp

theorem set_get?_self {α : Type} :
    ∀ (l : List α) (i : Nat) (e : α), l.get? i = some e → l.set i e = l := by
  intro l
  induction l with
  | nil =>
    intro i e h
    cases h
  | cons a t ih =>
    intro i e h
    cases i with
    | zero =>
      cases h
      rfl
    | succ i =>
      show a :: t.set i e = a :: t
      rw [ih i e h]

theorem setChildren_none {clist : List Entry} {i : Nat}
    (hg : clist.get? i = none) (e : List Nat) : setChildren clist i e = clist := by
  unfold setChildren
  rw [hg]

theorem setChildren_eq {clist : List Entry} {i : Nat} {t : Label} {cs : List Nat}
    (hg : clist.get? i = some (t, cs)) (e : List Nat) :
    setChildren clist i e = clist.set i (t, cs ++ e) := by
  unfold setChildren
  rw [hg]

theorem get?_lt_of_some {α : Type} {l : List α} {i : Nat} {e : α}
    (hg : l.get? i = some e) : i < l.length := by
  by_contra hc
  rw [List.get?_eq_none.mpr (by omega)] at hg
  cases hg

theorem setChildren_nil (clist : List Entry) (i : Nat) : setChildren clist i [] = clist := by
  cases hg : clist.get? i with
  | none => exact setChildren_none hg []
  | some en =>
    obtain ⟨t, cs⟩ := en
    rw [setChildren_eq hg [], List.append_nil]
    exact set_get?_self _ _ _ hg

theorem setChildren_get?_ne (clist : List Entry) {i j : Nat} (extra : List Nat)
    (hne : i ≠ j) : (setChildren clist i extra).get? j = clist.get? j := by
  cases hg : clist.get? i with
  | none => rw [setChildren_none hg]
  | some en =>
    obtain ⟨t, cs⟩ := en
    rw [setChildren_eq hg]
    exact List.get?_set_ne _ _ hne

theorem setChildren_get?_self {clist : List Entry} {i : Nat} {t : Label} {cs : List Nat}
    (hg : clist.get? i = some (t, cs)) (extra : List Nat) :
    (setChildren clist i extra).get? i = some (t, cs ++ extra) := by
  rw [setChildren_eq hg]
  exact List.get?_set_eq_of_lt _ (get?_lt_of_some hg)

theorem setChildren_append (clist m : List Entry) {i : Nat} (extra : List Nat)
    (h : i < clist.length) :
    setChildren (clist ++ m) i extra = setChildren clist i extra ++ m := by
  cases hg : clist.get? i with
  | none =>
    exfalso
    rw [List.get?_eq_none] at hg
    omega
  | some en =>
    obtain ⟨t, cs⟩ := en
    have hg' : (clist ++ m).get? i = some (t, cs) := by
      rw [List.get?_append h]
      exact hg
    rw [setChildren_eq hg', setChildren_eq hg]
    exact List.set_append_left _ _ h

theorem setChildren_setChildren (clist : List Entry) (i : Nat) (e₁ e₂ : List Nat) :
    setChildren (setChildren clist i e₁) i e₂ = setChildren clist i (e₁ ++ e₂) := by
  cases hg : clist.get? i with
  | none =>
    rw [setChildren_none hg, setChildren_none hg, setChildren_none hg]
  | some en =>
    obtain ⟨t, cs⟩ := en
    have h1 : (setChildren clist i e₁).get? i = some (t, cs ++ e₁) :=
      setChildren_get?_self hg e₁
    rw [setChildren_eq h1, setChildren_eq hg e₁, setChildren_eq hg (e₁ ++ e₂)]
    rw [List.set_set, List.append_assoc]

/-- `appendChild` is `setChildren` with a singleton. -/
theorem appendChild_eq (clist : List Entry) (i c : Nat) :
    appendChild clist i c = setChildren clist i [c] := by
  unfold appendChild setChildren
  cases clist.get? i with
  | none => rfl
  | some en => rfl

/-- The children-list component of `expand`, in closed form: the popped
entry receives the fresh indices, and one fresh empty entry per edge type
is appended. -/
theorem expand_c (n_hops : Int) :
    ∀ (ets : List EdgeType) (ninx lvl : Nat) (clist : List Entry) (q : List QItem),
      ninx < clist.length →
      (expand n_hops ets ninx lvl clist q).1
        = setChildren clist ninx (List.range' clist.length ets.length)
            ++ ets.map (fun et => (et.n2, ([] : List Nat))) := by
  intro ets
  induction ets with
  | nil =>
    intro ninx lvl clist q hlt
    simp [expand, setChildren_nil]
  | cons et rest ih =>
    intro ninx lvl clist q hlt
    have hstep : (expand n_hops (et :: rest) ninx lvl clist q).1
        = (expand n_hops rest ninx lvl
            (appendChild (clist ++ [(et.n2, ([] : List Nat))]) ninx clist.length)
            (if ((lvl : Int) + 1) < n_hops then q ++ [(et.n2, clist.length, lvl + 1)]
             else q)).1 := rfl
    have hmid : appendChild (clist ++ [(et.n2, ([] : List Nat))]) ninx clist.length
        = setChildren clist ninx [clist.length] ++ [(et.n2, ([] : List Nat))] := by
      rw [appendChild_eq, setChildren_append _ _ _ hlt]
    have hmidlen : (appendChild (clist ++ [(et.n2, ([] : List Nat))]) ninx
        clist.length).length = clist.length + 1 := by
      rw [hmid]
      simp [setChildren_length]
    have hlt' : ninx < (appendChild (clist ++ [(et.n2, ([] : List Nat))]) ninx
        clist.length).length := by omega
    rw [hstep, ih ninx lvl _ _ hlt', hmid]
    have hlen2 : (setChildren clist ninx [clist.length]
        ++ [(et.n2, ([] : List Nat))]).length = clist.length + 1 := by
      simp [setChildren_length]
    rw [hlen2, setChildren_append _ _ _ (by rw [setChildren_length]; exact hlt)]
    rw [setChildren_setChildren]
    rw [List.length_cons, List.range'_succ, List.map_cons]
    simp [List.append_assoc]

/-- Fuel-based evaluator for the work-queue loop, agreeing with
`processQueue` whenever the fuel dominates the queue measure (used to
compute `processQueue` on concrete inputs by kernel reduction). -/
def pqFuel (sch : SchemaMap) (n_hops : Int) :
    Nat → List QItem → List Entry → Except String (List Entry)
  | _, [], clist => .ok clist
  | 0, _ :: _, _ => .error "out of fuel"
  | fuel + 1, (nt, ninx, lvl) :: rest, clist =>
    match sch.lookup nt with
    | none => .error ("KeyError: " ++ nt)
    | some ets => pqFuel sch n_hops fuel
        (expand n_hops ets ninx lvl clist rest).2
        (expand n_hops ets ninx lvl clist rest).1

theorem pqFuel_eq (sch : SchemaMap) (n_hops : Int) :
    ∀ (fuel : Nat) (q : List QItem) (clist : List Entry),
      qMeasure n_hops (maxBucket sch) q ≤ fuel →
      pqFuel sch n_hops fuel q clist = processQueue sch n_hops q clist := by
  intro fuel
  induction fuel with
  | zero =>
    intro q clist hm
    cases q with
    | nil => rw [processQueue_nil]; rfl
    | cons it rest =>
      exfalso
      have h1 : qWeight n_hops (maxBucket sch) it ≤ qMeasure n_hops (maxBucket sch) (it :: rest) :=
        List.single_le_sum (fun x _ => Nat.zero_le x) _ (List.mem_map_of_mem _ (by simp))
      have h2 : 0 < qWeight n_hops (maxBucket sch) it := pow_pos (by omega) _
      omega
  | succ f ih =>
    intro q clist hm
    cases q with
    | nil => rw [processQueue_nil]; rfl
    | cons it rest =>
      obtain ⟨nt, ninx, lvl⟩ := it
      cases hlook : sch.lookup nt with
      | none =>
        have hkey : ¬ (sch.lookup nt).isSome = true := by
          rw [hlook]
          simp
        rw [processQueue_cons_err n_hops ninx lvl rest clist hkey]
        show pqFuel sch n_hops (f + 1) ((nt, ninx, lvl) :: rest) clist = _
        unfold pqFuel
        rw [hlook]
      | some ets =>
        have hkey : (sch.lookup nt).isSome = true := by
          rw [hlook]
          rfl
        have hget : (sch.lookup nt).get hkey = ets := by
          simp [hlook]
        have hlt := qMeasure_expand_lt n_hops (maxBucket sch) ets
          (lookup_length_le_maxBucket hlook) nt ninx lvl clist rest
        rw [processQueue_cons_key n_hops ninx lvl rest clist hkey, hget]
        show pqFuel sch n_hops (f + 1) ((nt, ninx, lvl) :: rest) clist = _
        unfold pqFuel
        rw [hlook]
        apply ih
        rw [qMeasure_cons] at hm hlt
        omega

/-- A convenient entry point for computing the adjacency generator. -/
theorem get_type_adjacency_list_eval (sch : SchemaMap) (heads : List Label)
    (n_hops : Int) (fuel : Nat)
    (hm : qMeasure n_hops (maxBucket sch)
      (if 0 < n_hops then heads.enum.map (fun p => (p.2, p.1, 0)) else []) ≤ fuel) :
    get_type_adjacency_list sch heads n_hops
      = pqFuel sch n_hops fuel
          (if 0 < n_hops then heads.enum.map (fun p => (p.2, p.1, 0)) else [])
          (heads.map (fun hn => (hn, ([] : List Nat)))) := by
  unfold get_type_adjacency_list
  exact (pqFuel_eq sch n_hops fuel _ _ hm).symm

/-- Invariant propagation for the work-queue loop: children recorded in
the output always point strictly forward, to entries already appended. -/
theorem processQueue_mono {sch : SchemaMap} {n_hops : Int} :
    ∀ (fuel : Nat) (q : List QItem) (clist : List Entry),
      qMeasure n_hops (maxBucket sch) q ≤ fuel →
      (∀ it ∈ q, it.2.1 < clist.length) →
      (∀ j t cs, clist.get? j = some (t, cs) → ∀ c ∈ cs, j < c ∧ c < clist.length) →
      ∀ final, processQueue sch n_hops q clist = .ok final →
        ∀ j t cs, final.get? j = some (t, cs) → ∀ c ∈ cs, j < c ∧ c < final.length := by
  intro fuel
  induction fuel with
  | zero =>
    intro q clist hm hI hJ final hok
    cases q with
    | nil =>
      rw [processQueue_nil] at hok
      cases hok
      exact hJ
    | cons it rest =>
      exfalso
      have h1 : qWeight n_hops (maxBucket sch) it
          ≤ qMeasure n_hops (maxBucket sch) (it :: rest) :=
        List.single_le_sum (fun x _ => Nat.zero_le x) _ (List.mem_map_of_mem _ (by simp))
      have h2 : 0 < qWeight n_hops (maxBucket sch) it := pow_pos (by omega) _
      omega
  | succ f ih =>
    intro q clist hm hI hJ final hok
    cases q with
    | nil =>
      rw [processQueue_nil] at hok
      cases hok
      exact hJ
    | cons it rest =>
      obtain ⟨nt, ninx, lvl⟩ := it
      by_cases hkey : (sch.lookup nt).isSome = true
      · rw [processQueue_cons_key n_hops ninx lvl rest clist hkey] at hok
        have hninx : ninx < clist.length := hI (nt, ninx, lvl) (List.mem_cons_self _ _)
        have hc := expand_c n_hops ((sch.lookup nt).get hkey) ninx lvl clist rest hninx
        have hq := expand_q n_hops ((sch.lookup nt).get hkey) ninx lvl clist rest
        have hlen' : (expand n_hops ((sch.lookup nt).get hkey) ninx lvl clist rest).1.length
            = clist.length + ((sch.lookup nt).get hkey).length := by
          rw [hc]
          simp [setChildren_length]
        have hlt := qMeasure_expand_lt n_hops (maxBucket sch)
          ((sch.lookup nt).get hkey)
          (lookup_length_le_maxBucket (Option.some_get hkey).symm) nt ninx lvl clist rest
        refine ih _ _ (by rw [qMeasure_cons] at hm hlt; omega) ?_ ?_ final hok
        · intro it' hit'
          rw [hq] at hit'
          rcases List.mem_append.mp hit' with hmem | hmem
          · have := hI it' (List.mem_cons_of_mem _ hmem)
            omega
          · by_cases hguard : ((lvl : Int) + 1) < n_hops
            · rw [if_pos hguard] at hmem
              obtain ⟨p, hp, rfl⟩ := List.mem_map.mp hmem
              have hp2 := (List.of_mem_zip hp).2
              rw [List.mem_range'] at hp2
              obtain ⟨k, hk, hpk⟩ := hp2
              show p.2 < _
              omega
            · rw [if_neg hguard] at hmem
              cases hmem
        · intro j t cs hg c hcmem
          rw [hc] at hg
          by_cases hjL : j < clist.length
          · rw [List.get?_append (by rw [setChildren_length]; exact hjL)] at hg
            by_cases hj : j = ninx
            · subst hj
              cases hen : clist.get? j with
              | none =>
                exfalso
                rw [List.get?_eq_none] at hen
                omega
              | some en =>
                obtain ⟨t0, cs0⟩ := en
                rw [setChildren_get?_self hen] at hg
                have hpair := Option.some.inj hg
                have hcs : cs = cs0 ++ List.range' clist.length
                    ((sch.lookup nt).get hkey).length := (congrArg Prod.snd hpair).symm
                rw [hcs] at hcmem
                rcases List.mem_append.mp hcmem with hc0 | hcIdx
                · have := hJ j t0 cs0 hen c hc0
                  omega
                · rw [List.mem_range'] at hcIdx
                  obtain ⟨k, hk, hck⟩ := hcIdx
                  constructor
                  · omega
                  · omega
            · rw [setChildren_get?_ne _ _ (Ne.symm hj)] at hg
              have := hJ j t cs hg c hcmem
              omega
          · rw [List.get?_append_right (by rw [setChildren_length]; omega)] at hg
            rw [List.get?_map] at hg
            cases het : ((sch.lookup nt).get hkey).get?
                (j - (setChildren clist ninx
                  (List.range' clist.length ((sch.lookup nt).get hkey).length)).length) with
            | none =>
              rw [het] at hg
              cases hg
            | some et =>
              rw [het] at hg
              cases hg
              cases hcmem
      · rw [processQueue_cons_err n_hops ninx lvl rest clist hkey] at hok
        cases hok

/-- C9: in every adjacency list returned by `get_type_adjacency_list`,
every recorded child index strictly exceeds its parent's index and refers
to an entry already present in the list. -/
theorem adjacency_child_indices_monotone (sch : SchemaMap) (heads : List Label)
    (n_hops : Int) (final : List Entry)
    (hok : get_type_adjacency_list sch heads n_hops = .ok final) :
    ∀ j t cs, final.get? j = some (t, cs) → ∀ c ∈ cs, j < c ∧ c < final.length := by
  unfold get_type_adjacency_list at hok
  refine processQueue_mono _ _ _ le_rfl ?_ ?_ final hok
  · intro it hit
    by_cases h0 : 0 < n_hops
    · rw [if_pos h0] at hit
      obtain ⟨p, hp, rfl⟩ := List.mem_map.mp hit
      rw [List.length_map]
      exact get?_lt_of_some (List.mk_mem_enum_iff_get?.mp (by rwa [Prod.mk.eta]))
    · rw [if_neg h0] at hit
      cases hit
  · intro j t cs hg c hcmem
    rw [List.get?_map] at hg
    cases hx : heads.get? j with
    | none =>
      rw [hx] at hg
      cases hg
    | some hl =>
      rw [hx] at hg
      cases hg
      cases hcmem

/-- A one-bucket schema used by the adjacency witness. -/
def schLoop : SchemaMap := [("P", [⟨"P", "r", "P"⟩])]

/-- Witness: on a concrete two-hop run, entry 0's child 1 points forward
into the three-entry list. -/
theorem adjacency_child_indices_monotone_witness :
    (0 : Nat) < 1 ∧ 1 < ([("P", [1]), ("P", [2]), ("P", [])] : List Entry).length :=
  adjacency_child_indices_monotone schLoop ["P"] 2 [("P", [1]), ("P", [2]), ("P", [])]
    (by rw [get_type_adjacency_list_eval schLoop ["P"] 2 50 (by decide)]; rfl)
    0 "P" [1] rfl 1 (by simp)

/-- All root-to-leaf type-paths reachable from a node type in at most
`level` hops, following the schema buckets in order; a node whose bucket
is empty (or at depth 0) ends its path.  This is the common specification
both generators are proved to realise. -/
def allPathsD (sch : SchemaMap) : Label → Nat → List (List Label)
  | nt, 0 => [[nt]]
  | nt, level + 1 =>
    if ((sch.lookup nt).getD []) = [] then [[nt]]
    else ((sch.lookup nt).getD []).flatMap
      (fun et => (allPathsD sch et.n2 level).map (fun pth => nt :: pth))

/-- Type-paths read off a flat adjacency list starting at entry `i`,
following recorded child indices (`fuel` bounds the descent). -/
def adjPaths (clist : List Entry) : Nat → Nat → List (List Label)
  | i, 0 =>
    match clist.get? i with
    | none => []
    | some (nt, _) => [[nt]]
  | i, fuel + 1 =>
    match clist.get? i with
    | none => []
    | some (nt, cs) =>
      if cs = [] then [[nt]]
      else cs.flatMap (fun c => (adjPaths clist c fuel).map (fun pth => nt :: pth))

mutual

/-- Type-paths from a sampling-tree node to its leaves (a tree node's own
type is the target type `n2` of its edge type). -/
def streePaths : STree → List (List Label)
  | .node _ et cs => if cs.isEmpty then [[et.n2]] else streeAux et.n2 cs

/-- Paths of the subtrees of a children forest, each prefixed with the
parent's type. -/
def streeAux : Label → List STree → List (List Label)
  | _, [] => []
  | nt, t :: ts => (streePaths t).map (fun pth => nt :: pth) ++ streeAux nt ts

end

/-- Paths from a (root) node of type `nt` with children forest `cs`. -/
def nodePaths (nt : Label) (cs : List STree) : List (List Label) :=
  if cs.isEmpty then [[nt]] else streeAux nt cs

/-- All type-paths of a sampling forest, roots in order. -/
def rootPathsAll (roots : List (String × Label × List STree)) : List (List Label) :=
  roots.flatMap (fun r => nodePaths r.2.1 r.2.2)

/-- All type-paths of an adjacency list, one bundle per head entry. -/
def adjPathsAll (clist : List Entry) (nheads fuel : Nat) : List (List Label) :=
  (List.range nheads).flatMap (fun j => adjPaths clist j fuel)

theorem streePaths_node (id : String) (et : EdgeType) (cs : List STree) :
    streePaths (.node id et cs) = nodePaths et.n2 cs := by
  rw [streePaths, nodePaths]

theorem zip_mem_swap {α β : Type} :
    ∀ {l₁ : List α} {l₂ : List β} {p : α × β}, p ∈ l₁.zip l₂ → (p.2, p.1) ∈ l₂.zip l₁ := by
  intro l₁
  induction l₁ with
  | nil =>
    intro l₂ p h
    rw [List.zip_nil_left] at h
    cases h
  | cons a t ih =>
    intro l₂ p h
    cases l₂ with
    | nil =>
      rw [List.zip_nil_right] at h
      cases h
    | cons b u =>
      rw [List.zip_cons_cons] at h
      rw [List.zip_cons_cons]
      rcases List.mem_cons.mp h with rfl | hmem
      · exact List.mem_cons_self _ _
      · exact List.mem_cons_of_mem _ (ih hmem)

/-- Positional lookup through a zip with `range'`: the `k`-th fresh index
addresses the `k`-th appended entry. -/
theorem zip_range'_get {α β : Type} (f : α → β) :
    ∀ (l : List α) (s : Nat) (pre : List β), pre.length = s →
      ∀ p ∈ l.zip (List.range' s l.length), (pre ++ l.map f).get? p.2 = some (f p.1) := by
  intro l
  induction l with
  | nil =>
    intro s pre hlen p hp
    rw [List.length_nil, List.zip_nil_left] at hp
    cases hp
  | cons a t ih =>
    intro s pre hlen p hp
    rw [List.length_cons, List.range'_succ, List.zip_cons_cons] at hp
    rcases List.mem_cons.mp hp with rfl | hmem
    · show (pre ++ (a :: t).map f).get? s = some (f a)
      rw [List.map_cons, List.get?_append_right (by omega)]
      rw [hlen]
      simp
    · have hres := ih (s + 1) (pre ++ [f a]) (by simp [hlen]) p hmem
      rw [List.append_assoc] at hres
      rw [List.map_cons]
      exact hres

/-- `flatMap` congruence through an index/value zip. -/
theorem flatMap_eq_of_zip {α β γ : Type} :
    ∀ (l₂ : List β) (l₁ : List α) (F : α → List γ) (G : β → List γ),
      l₁.length = l₂.length → (∀ p ∈ l₂.zip l₁, F p.2 = G p.1) →
      l₁.flatMap F = l₂.flatMap G := by
  intro l₂
  induction l₂ with
  | nil =>
    intro l₁ F G hlen _
    cases l₁ with
    | nil => rfl
    | cons a t => simp at hlen
  | cons b u ih =>
    intro l₁ F G hlen hp
    cases l₁ with
    | nil => simp at hlen
    | cons a t =>
      rw [List.flatMap_cons, List.flatMap_cons]
      rw [hp (b, a) (by rw [List.zip_cons_cons]; exact List.mem_cons_self _ _)]
      rw [ih t F G (by simpa using hlen)
        (fun p hmem => hp p (by rw [List.zip_cons_cons]; exact List.mem_cons_of_mem _ hmem))]

/-- Tree generation realises `allPathsD` on every forest of subtrees
(given the current-level specification for single nodes). -/
theorem neighborList_paths {sch : SchemaMap} {level : Nat}
    (hA : ∀ nt key, (sch.lookup nt).isSome = true →
      ∃ ts, get_neighbor_types sch nt level key = .ok ts ∧
        nodePaths nt ts = allPathsD sch nt level) :
    ∀ (ets : List EdgeType), (∀ et ∈ ets, (sch.lookup et.n2).isSome = true) →
      ∀ (ii : Nat) (key : String),
        ∃ ts, neighborList sch ets ii level key = .ok ts ∧ ts.length = ets.length ∧
          ∀ nt, streeAux nt ts
            = ets.flatMap (fun et => (allPathsD sch et.n2 level).map (fun pth => nt :: pth)) := by
  intro ets
  induction ets with
  | nil =>
    intro _ ii key
    refine ⟨[], ?_, rfl, fun nt => rfl⟩
    rw [neighborList]
  | cons et rest ih =>
    intro hsub ii key
    obtain ⟨sub, hsubok, hsubpaths⟩ :=
      hA et.n2 (gen_key key ii ++ "_") (hsub et (List.mem_cons_self _ _))
    obtain ⟨others, hothok, hothlen, hothpaths⟩ :=
      ih (fun e he => hsub e (List.mem_cons_of_mem _ he)) (ii + 1) key
    refine ⟨STree.node (gen_key key ii) et sub :: others, ?_, by simp [hothlen], ?_⟩
    · rw [neighborList, hsubok]
      show (neighborList sch rest (ii + 1) level key).bind _ = _
      rw [hothok]
      rfl
    · intro nt
      rw [streeAux, List.flatMap_cons, streePaths_node, hsubpaths, hothpaths nt]

/-- Tree generation realises `allPathsD` at every node type present in a
closed schema. -/
theorem get_neighbor_types_paths {sch : SchemaMap}
    (hclosed : ∀ nt ets, sch.lookup nt = some ets →
      ∀ et ∈ ets, (sch.lookup et.n2).isSome = true) :
    ∀ (level : Nat) (nt : Label) (key : String), (sch.lookup nt).isSome = true →
      ∃ ts, get_neighbor_types sch nt level key = .ok ts ∧
        nodePaths nt ts = allPathsD sch nt level := by
  intro level
  induction level with
  | zero =>
    intro nt key _
    refine ⟨[], ?_, ?_⟩
    · rw [get_neighbor_types]
    · rw [nodePaths, allPathsD]
      rfl
  | succ l ihl =>
    intro nt key h
    obtain ⟨ets, hets⟩ := Option.isSome_iff_exists.mp h
    have hsub : ∀ et ∈ ets, (sch.lookup et.n2).isSome = true := hclosed nt ets hets
    obtain ⟨ts, hok, hlen, hpaths⟩ := neighborList_paths ihl ets hsub 0 key
    refine ⟨ts, ?_, ?_⟩
    · rw [get_neighbor_types, hets]
      exact hok
    · rw [nodePaths, allPathsD, hets]
      by_cases hets0 : ets = []
      · subst hets0
        have hts : ts = [] := List.length_eq_zero.mp (by rw [hlen]; rfl)
        subst hts
        rfl
      · have hts : ¬ ts.isEmpty = true := by
          rw [List.isEmpty_iff]
          intro hts
          rw [hts] at hlen
          exact hets0 (List.length_eq_zero.mp hlen.symm)
        rw [if_neg hts, hpaths nt]
        show _ = if (ets = []) then _ else ets.flatMap _
        rw [if_neg hets0]

/-- The whole sampling forest realises `allPathsD` root by root. -/
theorem rootList_paths {sch : SchemaMap}
    (hclosed : ∀ nt ets, sch.lookup nt = some ets →
      ∀ et ∈ ets, (sch.lookup et.n2).isSome = true) (n : Nat) :
    ∀ (heads : List Label) (jj : Nat), (∀ h ∈ heads, (sch.lookup h).isSome = true) →
      ∃ roots, rootList sch heads jj n = .ok roots ∧
        rootPathsAll roots = heads.flatMap (fun h => allPathsD sch h n) := by
  intro heads
  induction heads with
  | nil =>
    intro jj _
    exact ⟨[], rfl, rfl⟩
  | cons h0 rest ih =>
    intro jj hh
    obtain ⟨sub, hsubok, hsubpaths⟩ := get_neighbor_types_paths hclosed n h0
      (gen_key "" jj ++ "#") (hh h0 (List.mem_cons_self _ _))
    obtain ⟨others, hothok, hothpaths⟩ :=
      ih (jj + 1) (fun h hm => hh h (List.mem_cons_of_mem _ hm))
    refine ⟨(natStr jj, h0, sub) :: others, ?_, ?_⟩
    · rw [rootList, hsubok]
      show (rootList sch rest (jj + 1) n).bind _ = _
      rw [hothok]
      rfl
    · rw [rootPathsAll, List.flatMap_cons]
      show nodePaths h0 sub ++ _ = _
      rw [hsubpaths, List.flatMap_cons]
      show _ = allPathsD sch h0 n ++ rest.flatMap (fun h => allPathsD sch h n)
      rw [← hothpaths]
      rfl

theorem adjPaths_zero {clist : List Entry} {i : Nat} {nt : Label} {cs : List Nat}
    (hg : clist.get? i = some (nt, cs)) : adjPaths clist i 0 = [[nt]] := by
  simp only [adjPaths, hg]

theorem adjPaths_succ {clist : List Entry} {i : Nat} {nt : Label} {cs : List Nat}
    (hg : clist.get? i = some (nt, cs)) (fuel : Nat) :
    adjPaths clist i (fuel + 1)
      = if cs = [] then [[nt]]
        else cs.flatMap (fun c => (adjPaths clist c fuel).map (fun pth => nt :: pth)) := by
  simp only [adjPaths, hg]

theorem allPathsD_zero (sch : SchemaMap) (nt : Label) : allPathsD sch nt 0 = [[nt]] := by
  simp only [allPathsD]

theorem allPathsD_succ {sch : SchemaMap} {nt : Label} {ets : List EdgeType}
    (hets : sch.lookup nt = some ets) (level : Nat) :
    allPathsD sch nt (level + 1)
      = if ets = [] then [[nt]]
        else ets.flatMap (fun et => (allPathsD sch et.n2 level).map (fun pth => nt :: pth)) := by
  simp only [allPathsD, hets, Option.getD_some]

/-- The work-queue loop realises `allPathsD` at every queued entry: after
the loop finishes, reading paths from a queued index (with the remaining
hop budget as fuel) gives exactly the schema paths of its node type. -/
theorem processQueue_paths {sch : SchemaMap} {n_hops : Int}
    (hclosed : ∀ nt ets, sch.lookup nt = some ets →
      ∀ et ∈ ets, (sch.lookup et.n2).isSome = true) :
    ∀ (fuel : Nat) (q : List QItem) (clist : List Entry),
      qMeasure n_hops (maxBucket sch) q ≤ fuel →
      (q.map (fun it => it.2.1)).Nodup →
      (∀ it ∈ q, it.2.1 < clist.length ∧ clist.get? it.2.1 = some (it.1, []) ∧
        (sch.lookup it.1).isSome = true ∧ (it.2.2 : Int) < n_hops) →
      ∃ final, processQueue sch n_hops q clist = .ok final ∧
        clist.length ≤ final.length ∧
        (∀ j, j < clist.length → (∀ it ∈ q, it.2.1 ≠ j) → final.get? j = clist.get? j) ∧
        (∀ it ∈ q, adjPaths final it.2.1 (n_hops.toNat - it.2.2)
          = allPathsD sch it.1 (n_hops.toNat - it.2.2)) := by
  intro fuel
  induction fuel with
  | zero =>
    intro q clist hm hnd hQ
    cases q with
    | nil =>
      exact ⟨clist, processQueue_nil _ _ _, le_rfl, fun j _ _ => rfl,
        fun it hit => absurd hit (List.not_mem_nil _)⟩
    | cons it rest =>
      exfalso
      have h1 : qWeight n_hops (maxBucket sch) it
          ≤ qMeasure n_hops (maxBucket sch) (it :: rest) :=
        List.single_le_sum (fun x _ => Nat.zero_le x) _ (List.mem_map_of_mem _ (by simp))
      have h2 : 0 < qWeight n_hops (maxBucket sch) it := pow_pos (by omega) _
      omega
  | succ f ih =>
    intro q clist hm hnd hQ
    cases q with
    | nil =>
      exact ⟨clist, processQueue_nil _ _ _, le_rfl, fun j _ _ => rfl,
        fun it hit => absurd hit (List.not_mem_nil _)⟩
    | cons it0 rest =>
      obtain ⟨nt, ninx, lvl⟩ := it0
      obtain ⟨hninx0, hgetn0, hkeyS0, hlvl0⟩ := hQ (nt, ninx, lvl) (List.mem_cons_self _ _)
      have hninx : ninx < clist.length := hninx0
      have hgetn : clist.get? ninx = some (nt, []) := hgetn0
      have hkeyS : (sch.lookup nt).isSome = true := hkeyS0
      have hlvl : (lvl : Int) < n_hops := hlvl0
      obtain ⟨ets, hets⟩ := Option.isSome_iff_exists.mp hkeyS
      have hget : (sch.lookup nt).get hkeyS = ets := by simp [hets]
      have hstep := @processQueue_cons_key sch nt n_hops ninx lvl rest clist hkeyS
      rw [hget] at hstep
      have hc := expand_c n_hops ets ninx lvl clist rest hninx
      have hq := expand_q n_hops ets ninx lvl clist rest
      have hKle : ets.length ≤ maxBucket sch := lookup_length_le_maxBucket hets
      have hlt := qMeasure_expand_lt n_hops (maxBucket sch) ets hKle nt ninx lvl clist rest
      have hlen' : (expand n_hops ets ninx lvl clist rest).1.length
          = clist.length + ets.length := by
        rw [hc]
        simp [setChildren_length]
      rw [List.map_cons] at hnd
      obtain ⟨hninx_not, hndrest⟩ := List.nodup_cons.mp hnd
      have hninx_rest : ∀ it ∈ rest, it.2.1 ≠ ninx := fun it hit heq =>
        hninx_not (List.mem_map.mpr ⟨it, hit, heq⟩)
      have hrest_lt : ∀ it ∈ rest, it.2.1 < clist.length := by
        intro it hit
        exact (hQ it (List.mem_cons_of_mem _ hit)).1
      -- facts about the fresh part of the queue
      have hnew_idx : ∀ p ∈ ets.zip (List.range' clist.length ets.length),
          clist.length ≤ p.2 ∧ p.2 < clist.length + ets.length := by
        intro p hp
        have := (List.of_mem_zip hp).2
        rw [List.mem_range'] at this
        obtain ⟨k, hk, hpk⟩ := this
        omega
      have hnew_get : ∀ p ∈ ets.zip (List.range' clist.length ets.length),
          (expand n_hops ets ninx lvl clist rest).1.get? p.2 = some (p.1.n2, []) := by
        intro p hp
        rw [hc]
        exact zip_range'_get (fun et => (et.n2, ([] : List Nat))) ets clist.length
          (setChildren clist ninx (List.range' clist.length ets.length))
          (setChildren_length _ _ _) p hp
      have hq_idx : ∀ it ∈ (expand n_hops ets ninx lvl clist rest).2,
          it.2.1 ≠ ninx ∧ it.2.1 < clist.length + ets.length := by
        intro it hit
        rw [hq] at hit
        rcases List.mem_append.mp hit with hmem | hmem
        · have h1 := hninx_rest it hmem
          have h2 := hrest_lt it hmem
          exact ⟨h1, by omega⟩
        · by_cases hguard : ((lvl : Int) + 1) < n_hops
          · rw [if_pos hguard] at hmem
            obtain ⟨p, hp, rfl⟩ := List.mem_map.mp hmem
            obtain ⟨hp1, hp2⟩ := hnew_idx p hp
            exact ⟨by show p.2 ≠ ninx; omega, by show p.2 < _; omega⟩
          · rw [if_neg hguard] at hmem
            cases hmem
      -- new-state invariants
      have hnd' : (((expand n_hops ets ninx lvl clist rest).2).map
          (fun it => it.2.1)).Nodup := by
        rw [hq, List.map_append, List.nodup_append]
        refine ⟨hndrest, ?_, ?_⟩
        · by_cases hguard : ((lvl : Int) + 1) < n_hops
          · rw [if_pos hguard, List.map_map]
            have hmaps : ((fun it : QItem => it.2.1)
                ∘ (fun p : EdgeType × Nat => (p.1.n2, p.2, lvl + 1)))
                = Prod.snd := rfl
            rw [hmaps, List.map_snd_zip _ _ (by rw [List.length_range'])]
            exact List.nodup_range' _ _
          · rw [if_neg hguard]
            exact List.nodup_nil
        · intro a ha hb
          obtain ⟨it1, hit1, rfl⟩ := List.mem_map.mp ha
          have h1 := hrest_lt it1 hit1
          by_cases hguard : ((lvl : Int) + 1) < n_hops
          · rw [if_pos hguard, List.map_map] at hb
            obtain ⟨p, hp, hpe⟩ := List.mem_map.mp hb
            obtain ⟨hq1, hq2⟩ := hnew_idx p hp
            have hpe' : p.2 = it1.2.1 := hpe
            omega
          · rw [if_neg hguard] at hb
            cases hb
      have hQ' : ∀ it ∈ (expand n_hops ets ninx lvl clist rest).2,
          it.2.1 < (expand n_hops ets ninx lvl clist rest).1.length ∧
          (expand n_hops ets ninx lvl clist rest).1.get? it.2.1 = some (it.1, []) ∧
          (sch.lookup it.1).isSome = true ∧ (it.2.2 : Int) < n_hops := by
        intro it hit
        have hidx := hq_idx it hit
        rw [hq] at hit
        rcases List.mem_append.mp hit with hmem | hmem
        · obtain ⟨h1, h2, h3, h4⟩ := hQ it (List.mem_cons_of_mem _ hmem)
          refine ⟨by omega, ?_, h3, h4⟩
          rw [hc, List.get?_append (by rw [setChildren_length]; exact h1),
            setChildren_get?_ne _ _ (Ne.symm hidx.1)]
          exact h2
        · by_cases hguard : ((lvl : Int) + 1) < n_hops
          · rw [if_pos hguard] at hmem
            obtain ⟨p, hp, rfl⟩ := List.mem_map.mp hmem
            have hmem' : (p.1.n2, p.2, lvl + 1)
                ∈ (expand n_hops ets ninx lvl clist rest).2 := by
              rw [hq, if_pos hguard]
              exact List.mem_append_right _ (List.mem_map_of_mem _ hp)
            have hidx2 := (hq_idx _ hmem').2
            refine ⟨by rw [hlen']; exact hidx2, hnew_get p hp, ?_, hguard⟩
            exact hclosed nt ets hets p.1 (List.of_mem_zip hp).1
          · rw [if_neg hguard] at hmem
            cases hmem
      obtain ⟨final, hfok, hflen, hfb, hfpaths⟩ :=
        ih _ _ (by rw [qMeasure_cons] at hm hlt; omega) hnd' hQ'
      refine ⟨final, by rw [hstep]; exact hfok, by omega, ?_, ?_⟩
      · intro j hj hnotin
        have hjn : ninx ≠ j := hnotin (nt, ninx, lvl) (List.mem_cons_self _ _)
        have h1 : final.get? j = (expand n_hops ets ninx lvl clist rest).1.get? j := by
          refine hfb j (by omega) ?_
          intro it hit
          rcases List.mem_append.mp (by rw [← hq]; exact hit) with hmem | hmem
          · exact hnotin it (List.mem_cons_of_mem _ hmem)
          · by_cases hguard : ((lvl : Int) + 1) < n_hops
            · rw [if_pos hguard] at hmem
              obtain ⟨p, hp, rfl⟩ := List.mem_map.mp hmem
              obtain ⟨hp1, hp2⟩ := hnew_idx p hp
              show p.2 ≠ j
              omega
            · rw [if_neg hguard] at hmem
              cases hmem
        rw [h1, hc, List.get?_append (by rw [setChildren_length]; exact hj),
          setChildren_get?_ne _ _ hjn]
      · intro it hit
        rcases List.mem_cons.mp hit with heq | hmem
        · subst heq
          show adjPaths final ninx (n_hops.toNat - lvl) = allPathsD sch nt (n_hops.toNat - lvl)
          have htn : lvl < n_hops.toNat := by omega
          have hmeq : n_hops.toNat - lvl = (n_hops.toNat - lvl - 1) + 1 := by omega
          have hninx_q' : ∀ it ∈ (expand n_hops ets ninx lvl clist rest).2,
              it.2.1 ≠ ninx := fun it hit => (hq_idx it hit).1
          have hfinninx : final.get? ninx
              = some (nt, List.range' clist.length ets.length) := by
            have h1 : final.get? ninx = (expand n_hops ets ninx lvl clist rest).1.get? ninx :=
              hfb ninx (by omega) hninx_q'
            rw [h1, hc, List.get?_append (by rw [setChildren_length]; exact hninx),
              setChildren_get?_self hgetn, List.nil_append]
          rw [hmeq, adjPaths_succ hfinninx, allPathsD_succ hets]
          by_cases hK : ets = []
          · subst hK
            simp
          · have hKne : List.range' clist.length ets.length ≠ [] := by
              cases hKl : ets.length with
              | zero => exact absurd (List.length_eq_zero.mp hKl) hK
              | succ k =>
                rw [List.range'_succ]
                simp
            rw [if_neg hKne, if_neg hK]
            refine flatMap_eq_of_zip ets (List.range' clist.length ets.length) _ _
              (by rw [List.length_range']) ?_
            intro p hp
            have hsub : adjPaths final p.2 (n_hops.toNat - lvl - 1)
                = allPathsD sch p.1.n2 (n_hops.toNat - lvl - 1) := by
              by_cases hguard : ((lvl : Int) + 1) < n_hops
              · have hmem' : (p.1.n2, p.2, lvl + 1)
                    ∈ (expand n_hops ets ninx lvl clist rest).2 := by
                  rw [hq]
                  exact List.mem_append_right _
                    (by rw [if_pos hguard]; exact List.mem_map_of_mem _ hp)
                have := hfpaths _ hmem'
                have hm2 : n_hops.toNat - (lvl + 1) = n_hops.toNat - lvl - 1 := by omega
                rw [hm2] at this
                exact this
              · have hm0 : n_hops.toNat - lvl - 1 = 0 := by omega
                rw [hm0]
                have hgetp : final.get? p.2 = some (p.1.n2, []) := by
                  have h1 : final.get? p.2
                      = (expand n_hops ets ninx lvl clist rest).1.get? p.2 := by
                    obtain ⟨hp1, hp2⟩ := hnew_idx p hp
                    refine hfb p.2 (by omega) ?_
                    intro it hit
                    rw [hq, if_neg hguard, List.append_nil] at hit
                    have h2 := hrest_lt it hit
                    omega
                  rw [h1]
                  exact hnew_get p hp
                rw [adjPaths_zero hgetp, allPathsD_zero]
            show (adjPaths final p.2 (n_hops.toNat - lvl - 1)).map (fun pth => nt :: pth)
              = (allPathsD sch p.1.n2 (n_hops.toNat - lvl - 1)).map (fun pth => nt :: pth)
            rw [hsub]
        · exact hfpaths it (by rw [hq]; exact List.mem_append_left _ hmem)

/-- C7: for identical head types, identical depth, and the same schema
(heads present; every bucket target present, so that both traversals
succeed), the nested sampling tree and the flat adjacency list encode the
same multiset of root-to-leaf type-paths. -/
theorem tree_adjacency_same_paths (sch : SchemaMap) (heads : List Label) (n : Nat)
    (hclosed : ∀ nt ets, sch.lookup nt = some ets →
      ∀ et ∈ ets, (sch.lookup et.n2).isSome = true)
    (hheads : ∀ h ∈ heads, (sch.lookup h).isSome = true) :
    ∃ roots final, get_sampling_tree sch heads n = .ok roots ∧
      get_type_adjacency_list sch heads (n : Int) = .ok final ∧
      (rootPathsAll roots : Multiset (List Label))
        = (adjPathsAll final heads.length n : Multiset (List Label)) := by
  obtain ⟨roots, hrok, hrpaths⟩ := rootList_paths hclosed n heads 0 hheads
  by_cases h0 : 0 < n
  · have hq0nd : ((heads.enum.map (fun p => (p.2, p.1, 0))).map
        (fun it : QItem => it.2.1)).Nodup := by
      rw [List.map_map]
      have hcomp : ((fun it : QItem => it.2.1) ∘ (fun p : Nat × Label => (p.2, p.1, 0)))
          = Prod.fst := rfl
      rw [hcomp]
      exact List.nodup_enum_map_fst heads
    have hinv : ∀ it ∈ heads.enum.map (fun p => ((p.2, p.1, 0) : QItem)),
        it.2.1 < (heads.map (fun hn => (hn, ([] : List Nat)))).length ∧
        (heads.map (fun hn => (hn, ([] : List Nat)))).get? it.2.1 = some (it.1, []) ∧
        (sch.lookup it.1).isSome = true ∧ (it.2.2 : Int) < (n : Int) := by
      intro it hit
      obtain ⟨p, hp, rfl⟩ := List.mem_map.mp hit
      have hg : heads.get? p.1 = some p.2 :=
        List.mk_mem_enum_iff_get?.mp (by rwa [Prod.mk.eta])
      have hlt : p.1 < heads.length := get?_lt_of_some hg
      refine ⟨by rw [List.length_map]; exact hlt, ?_, hheads p.2 (List.get?_mem hg), ?_⟩
      · show (heads.map (fun hn => (hn, ([] : List Nat)))).get? p.1 = some (p.2, [])
        rw [List.get?_map, hg]
        rfl
      · show ((0 : Nat) : Int) < (n : Int)
        exact_mod_cast h0
    obtain ⟨final, hfok, hflen, hfb, hfpaths⟩ := @processQueue_paths sch (n : Int) hclosed
      (qMeasure (n : Int) (maxBucket sch) (heads.enum.map (fun p => (p.2, p.1, 0))))
      (heads.enum.map (fun p => (p.2, p.1, 0)))
      (heads.map (fun hn => (hn, ([] : List Nat)))) le_rfl hq0nd hinv
    refine ⟨roots, final, hrok, ?_, ?_⟩
    · unfold get_type_adjacency_list
      rw [if_pos (by exact_mod_cast h0)]
      exact hfok
    · have hlist : adjPathsAll final heads.length n
          = heads.flatMap (fun h => allPathsD sch h n) := by
        unfold adjPathsAll
        refine flatMap_eq_of_zip heads (List.range heads.length) _ _
          (by rw [List.length_range]) ?_
        intro p hp
        have hp' : (p.2, p.1) ∈ heads.enum := by
          rw [List.enum_eq_zip_range]
          exact zip_mem_swap hp
        have hmem : (p.1, p.2, 0) ∈ heads.enum.map (fun q => (q.2, q.1, 0)) :=
          List.mem_map_of_mem _ hp'
        have hres := hfpaths (p.1, p.2, 0) hmem
        have htn : (n : Int).toNat - 0 = n := by omega
        rw [htn] at hres
        exact hres
      rw [hrpaths, hlist]
  · have hn0 : n = 0 := by omega
    subst hn0
    refine ⟨roots, heads.map (fun hn => (hn, ([] : List Nat))), hrok, ?_, ?_⟩
    · unfold get_type_adjacency_list
      rw [if_neg (by omega)]
      exact processQueue_nil _ _ _
    · have hlist : adjPathsAll (heads.map (fun hn => (hn, ([] : List Nat)))) heads.length 0
          = heads.flatMap (fun h => allPathsD sch h 0) := by
        unfold adjPathsAll
        refine flatMap_eq_of_zip heads (List.range heads.length) _ _
          (by rw [List.length_range]) ?_
        intro p hp
        have hg : heads.get? p.2 = some p.1 := by
          have hp' : (p.2, p.1) ∈ heads.enum := by
            rw [List.enum_eq_zip_range]
            exact zip_mem_swap hp
          exact List.mk_mem_enum_iff_get?.mp hp'
        have hget0 : (heads.map (fun hn => (hn, ([] : List Nat)))).get? p.2
            = some (p.1, []) := by
          rw [List.get?_map, hg]
          rfl
        rw [adjPaths_zero hget0, allPathsD_zero]
      rw [hrpaths, hlist]

/-- Witness for the path equivalence on a one-type looping schema with a
single head and two hops. -/
theorem tree_adjacency_same_paths_witness :
    ∃ roots final, get_sampling_tree schLoop ["P"] 2 = .ok roots ∧
      get_type_adjacency_list schLoop ["P"] ((2 : Nat) : Int) = .ok final ∧
      (rootPathsAll roots : Multiset (List Label))
        = (adjPathsAll final (["P"] : List Label).length 2 : Multiset (List Label)) :=
  tree_adjacency_same_paths schLoop ["P"] 2
    (by
      intro nt ets hl et hmem
      unfold schLoop at hl
      rw [List.lookup] at hl
      split at hl
      · cases hl
        rcases List.mem_singleton.mp hmem with rfl
        rfl
      · rw [List.lookup_nil] at hl
        cases hl)
    (by
      intro h hm
      rcases List.mem_singleton.mp hm with rfl
      rfl)

theorem mem_sg_node_types {g : SGraph} {x : NodeId} {A : Label}
    (h : nodeType g x = some A) : A ∈ sg_node_types g := by
  unfold sg_node_types
  rw [(List.perm_insertionSort _ _).mem_iff, List.mem_dedup]
  exact List.mem_map.mpr ⟨(x, A), lookup_mem h, rfl⟩

theorem mem_edge_types_iff {g : SGraph} {regs : List (Label × EdgeType)}
    (hreg : edgeRegistrations g = some regs) (t : EdgeType) :
    t ∈ sg_edge_types regs ↔ ∃ p ∈ regs, p.2 = t := by
  rw [sg_edge_types_mem]
  constructor
  · intro h
    obtain ⟨p, hp, rfl⟩ := List.mem_map.mp h
    exact ⟨p, hp, rfl⟩
  · rintro ⟨p, hp, rfl⟩
    exact List.mem_map.mpr ⟨p, hp, rfl⟩

theorem edgeReg_eval {g : SGraph} {e : NodeId × NodeId × Label} {t1 t2 : Label}
    (h1 : nodeType g e.1 = some t1) (h2 : nodeType g e.2.1 = some t2) :
    edgeReg g e = some ((t1, ⟨t1, e.2.2, t2⟩) ::
      (if g.directed then [] else [(t2, ⟨t2, e.2.2, t1⟩)])) := by
  unfold edgeReg
  rw [h1, h2]
  rfl

/-- C8: every triple in `schema[t]` has source `t`, and `schema[t]` is
exactly the subsequence of `edge_types` with source `t`, in `edge_types`
order (filtered, not independently sorted). -/
theorem schema_buckets_filter_edge_types (g : SGraph) (b : Bool) (gs : GraphSchema)
    (hcs : create_graph_schema g b = some gs) :
    ∀ nt bkt, (nt, bkt) ∈ gs.schema →
      (∀ et ∈ bkt, et.n1 = nt) ∧ bkt = gs.edge_types.filter (fun et => et.n1 == nt) := by
  obtain ⟨regs, hreg, hnt, het, hsch⟩ := create_graph_schema_parts hcs
  intro nt bkt hmem
  rw [hsch] at hmem
  obtain ⟨nt', hnt', heq⟩ := List.mem_map.mp hmem
  have h1 : nt' = nt := congrArg Prod.fst heq
  have h2 : schemaOf (sg_edge_types regs) regs nt' = bkt := congrArg Prod.snd heq
  subst h1
  rw [← h2, schemaOf_eq_filter hreg, het]
  constructor
  · intro et hmem'
    exact eq_of_beq (List.mem_filter.mp hmem').2
  · rfl

/-- C6: for an undirected graph each edge registers both the forward and
the reverse triple (each filed under its own source type's bucket); for a
directed graph `edge_types` contains exactly the forward triples. -/
theorem undirected_schema_symmetry (g : SGraph) (b : Bool) (gs : GraphSchema)
    (hcs : create_graph_schema g b = some gs) :
    (g.directed = false →
      ∀ n1 n2 r A B, (n1, n2, r) ∈ g.edges →
        nodeType g n1 = some A → nodeType g n2 = some B → A ≠ B →
        EdgeType.mk A r B ∈ gs.edge_types ∧ EdgeType.mk B r A ∈ gs.edge_types ∧
        (∃ bktA, gs.schema.lookup A = some bktA ∧ EdgeType.mk A r B ∈ bktA) ∧
        (∃ bktB, gs.schema.lookup B = some bktB ∧ EdgeType.mk B r A ∈ bktB)) ∧
    (g.directed = true →
      ∀ t, t ∈ gs.edge_types ↔
        ∃ e ∈ g.edges, ∃ A B, nodeType g e.1 = some A ∧ nodeType g e.2.1 = some B ∧
          t = EdgeType.mk A e.2.2 B) := by
  obtain ⟨regs, hreg, hnt, het, hsch⟩ := create_graph_schema_parts hcs
  constructor
  · intro hdir n1 n2 r A B hedge hA hB hAB
    have hys := @edgeReg_eval g (n1, n2, r) A B hA hB
    rw [hdir] at hys
    simp only [Bool.false_eq_true, if_neg] at hys
    have hfwd : (A, EdgeType.mk A r B) ∈ regs :=
      (edgeRegistrations_mem hreg _).mpr ⟨(n1, n2, r), hedge, _, hys, by simp⟩
    have hrev : (B, EdgeType.mk B r A) ∈ regs :=
      (edgeRegistrations_mem hreg _).mpr ⟨(n1, n2, r), hedge, _, hys, by simp⟩
    have hfwdT : EdgeType.mk A r B ∈ gs.edge_types := by
      rw [het]
      exact (mem_edge_types_iff hreg _).mpr ⟨_, hfwd, rfl⟩
    have hrevT : EdgeType.mk B r A ∈ gs.edge_types := by
      rw [het]
      exact (mem_edge_types_iff hreg _).mpr ⟨_, hrev, rfl⟩
    refine ⟨hfwdT, hrevT, ?_, ?_⟩
    · refine ⟨schemaOf (sg_edge_types regs) regs A, ?_, ?_⟩
      · rw [hsch]
        exact lookup_map_pair _ _ _ (mem_sg_node_types hA)
      · rw [schemaOf_eq_filter hreg]
        refine List.mem_filter.mpr ⟨?_, by simp⟩
        rw [het] at hfwdT
        exact hfwdT
    · refine ⟨schemaOf (sg_edge_types regs) regs B, ?_, ?_⟩
      · rw [hsch]
        exact lookup_map_pair _ _ _ (mem_sg_node_types hB)
      · rw [schemaOf_eq_filter hreg]
        refine List.mem_filter.mpr ⟨?_, by simp⟩
        rw [het] at hrevT
        exact hrevT
  · intro hdir t
    rw [het, mem_edge_types_iff hreg]
    constructor
    · rintro ⟨p, hp, rfl⟩
      obtain ⟨e, he, ys, hys, hpys⟩ := (edgeRegistrations_mem hreg p).mp hp
      cases hA : nodeType g e.1 with
      | none =>
        exfalso
        unfold edgeReg at hys
        rw [hA] at hys
        cases hys
      | some A =>
        cases hB : nodeType g e.2.1 with
        | none =>
          exfalso
          unfold edgeReg at hys
          rw [hA, hB] at hys
          cases hys
        | some B =>
          rw [edgeReg_eval hA hB, hdir, if_pos rfl] at hys
          cases hys
          rcases List.mem_singleton.mp hpys with rfl
          exact ⟨e, he, A, B, hA, hB, rfl⟩
    · rintro ⟨e, he, A, B, hA, hB, rfl⟩
      refine ⟨(A, EdgeType.mk A e.2.2 B), ?_, rfl⟩
      refine (edgeRegistrations_mem hreg _).mpr ⟨e, he, _, edgeReg_eval hA hB, by simp⟩

/-- Three-type undirected chain used to exhibit the `edge_type_map` bug:
nodes `a:A`, `b:B`, `c:C`, edges `a-b` and `b-c` with relation `r`. -/
def gChain : SGraph :=
  { nodes := [("a", "A"), ("b", "B"), ("c", "C")]
    edges := [("a", "b", "r"), ("b", "c", "r")]
    directed := false }

/-- Two-type undirected graph used to exhibit the `get_node_type` bug:
nodes `x:A`, `y:B`, one edge `x-y` with relation `r`. -/
def gPair : SGraph :=
  { nodes := [("x", "A"), ("y", "B")]
    edges := [("x", "y", "r")]
    directed := false }

/-- A small schema with two node types and two edge types, used to witness
the negative-index lookup behaviour. -/
def gsSmall : GraphSchema :=
  { node_types := ["A", "B"]
    edge_types := [⟨"A", "r", "B"⟩, ⟨"B", "r", "A"⟩]
    schema := [("A", [⟨"A", "r", "B"⟩]), ("B", [⟨"B", "r", "A"⟩])]
    node_type_map := none
    edge_type_map := none }

/-- The schema the builder produces for `gChain` (checked below). -/
def gsChainVal : GraphSchema :=
  { node_types := ["A", "B", "C"]
    edge_types := [⟨"A", "r", "B"⟩, ⟨"B", "r", "A"⟩, ⟨"B", "r", "C"⟩, ⟨"C", "r", "B"⟩]
    schema := [("A", [⟨"A", "r", "B"⟩]), ("B", [⟨"B", "r", "A"⟩, ⟨"B", "r", "C"⟩]),
      ("C", [⟨"C", "r", "B"⟩])]
    node_type_map := some [("a", 0), ("b", 1), ("c", 2)]
    edge_type_map := some [(("b", "c"), 2)] }

/-- The schema the builder produces for `gPair` (checked below). -/
def gsPairVal : GraphSchema :=
  { node_types := ["A", "B"]
    edge_types := [⟨"A", "r", "B"⟩, ⟨"B", "r", "A"⟩]
    schema := [("A", [⟨"A", "r", "B"⟩]), ("B", [⟨"B", "r", "A"⟩])]
    node_type_map := some [("x", 0), ("y", 1)]
    edge_type_map := some [(("x", "y"), 0)] }

/-- C1: schema construction with type maps enabled does NOT key
`edge_type_map` by each edge's endpoint pair.  The dict-comprehension key
is the leaked loop variable `e` (the last edge of the preceding loop), so
the built map holds exactly one entry — here `(b, c)`, while the edge
`(a, b)` of the graph is missing from the map entirely. -/
theorem edge_type_map_keyed_by_leaked_variable :
    create_graph_schema gChain true = some gsChainVal ∧
      ("a", "b", "r") ∈ gChain.edges ∧
      gsChainVal.edge_type_map = some [(("b", "c"), 2)] ∧
      (([(("b", "c"), 2)] : List ((NodeId × NodeId) × Nat)).lookup ("a", "b") = none) :=
  ⟨by decide, by decide, rfl, rfl⟩

/-- C2: `get_node_type` with `index=False` returns
`node_types[False] = node_types[0]`, not the queried node's own type
label.  Node `y` has type index 1 (label `"B"`), yet the lookup returns
`"A"`; with `index=True` the correct index 1 is returned. -/
theorem get_node_type_returns_first_label :
    create_graph_schema gPair true = some gsPairVal ∧
      gsPairVal.node_type_map = some [("x", 0), ("y", 1)] ∧
      gsPairVal.node_types.get? 1 = some "B" ∧
      get_node_type gsPairVal "y" false = some (Sum.inr "A") ∧
      get_node_type gsPairVal "y" true = some (Sum.inl 1) ∧
      get_node_type gsPairVal "zzz" false = none :=
  ⟨by decide, rfl, rfl, rfl, rfl, rfl⟩

/-- Witness for the bucket/filter characterisation on the concrete chain
graph: bucket `B` of the built schema. -/
theorem schema_buckets_filter_witness :
    (∀ et ∈ ([⟨"B", "r", "A"⟩, ⟨"B", "r", "C"⟩] : List EdgeType), et.n1 = "B") ∧
      ([⟨"B", "r", "A"⟩, ⟨"B", "r", "C"⟩] : List EdgeType)
        = gsChainVal.edge_types.filter (fun et => et.n1 == "B") :=
  schema_buckets_filter_edge_types gChain true gsChainVal (by decide) "B"
    [⟨"B", "r", "A"⟩, ⟨"B", "r", "C"⟩] (by decide)

/-- Witness for the undirected symmetry on the concrete chain graph: edge
`a-b` of relation `r` between types `A` and `B`. -/
theorem undirected_schema_symmetry_witness :
    EdgeType.mk "A" "r" "B" ∈ gsChainVal.edge_types ∧
      EdgeType.mk "B" "r" "A" ∈ gsChainVal.edge_types ∧
      (∃ bktA, gsChainVal.schema.lookup "A" = some bktA ∧ EdgeType.mk "A" "r" "B" ∈ bktA) ∧
      (∃ bktB, gsChainVal.schema.lookup "B" = some bktB ∧ EdgeType.mk "B" "r" "A" ∈ bktB) :=
  (undirected_schema_symmetry gChain true gsChainVal (by decide)).1 rfl "a" "b" "r" "A" "B"
    (by decide) rfl rfl (by decide)

/-- C10: `node_index_to_key` and `edge_index_to_key` follow Python list
indexing: a negative index `-k ≤ i ≤ -1` wraps to position `k + i`, and
`none` is returned exactly for `i ≥ k` or `i < -k`. -/
theorem index_to_key_negative_wraps (gs : GraphSchema) (i : Int) :
    ((1 ≤ gs.node_types.length ∧ -(gs.node_types.length : Int) ≤ i ∧ i ≤ -1) →
      node_index_to_key gs i
          = gs.node_types.get? (((gs.node_types.length : Int) + i).toNat) ∧
        (node_index_to_key gs i).isSome = true) ∧
    (node_index_to_key gs i = none ↔
      ((gs.node_types.length : Int) ≤ i ∨ i < -(gs.node_types.length : Int))) ∧
    ((1 ≤ gs.edge_types.length ∧ -(gs.edge_types.length : Int) ≤ i ∧ i ≤ -1) →
      edge_index_to_key gs i
          = gs.edge_types.get? (((gs.edge_types.length : Int) + i).toNat) ∧
        (edge_index_to_key gs i).isSome = true) ∧
    (edge_index_to_key gs i = none ↔
      ((gs.edge_types.length : Int) ≤ i ∨ i < -(gs.edge_types.length : Int))) := by
  refine ⟨fun ⟨h1, h2, h3⟩ => ?_, pyGet_none_iff _ _, fun ⟨h1, h2, h3⟩ => ?_,
    pyGet_none_iff _ _⟩
  · refine ⟨pyGet_neg _ _ (by omega) h2, ?_⟩
    rw [Option.isSome_iff_ne_none]
    intro hnone
    unfold node_index_to_key at hnone
    rw [pyGet_none_iff] at hnone
    omega
  · refine ⟨pyGet_neg _ _ (by omega) h2, ?_⟩
    rw [Option.isSome_iff_ne_none]
    intro hnone
    unfold edge_index_to_key at hnone
    rw [pyGet_none_iff] at hnone
    omega

/-- Witness for the negative-index lookup theorem at a concrete schema. -/
theorem index_to_key_negative_wraps_witness :
    node_index_to_key gsSmall (-1)
        = gsSmall.node_types.get? (((gsSmall.node_types.length : Int) + (-1)).toNat) ∧
      (node_index_to_key gsSmall (-1)).isSome = true :=
  (index_to_key_negative_wraps gsSmall (-1)).1 (by refine ⟨by decide, by decide, by decide⟩)

/-! ### The sampling-tree id scheme -/

/-- The edge type stored at a sampling-tree node. -/
def treeET : STree → EdgeType
  | .node _ et _ => et

mutual

/-- The subtree at enumeration index `i` under id-prefix `p` carries id
`gen_key p i` (the running key followed by `str(i)`, with no trailing
separator), and its own children use the extended prefix
`gen_key p i + "_"`. -/
def treeIdOK : String → Nat → STree → Prop
  | p, i, .node id _ cs => id = gen_key p i ∧ forestIdOK (gen_key p i ++ "_") 0 cs

/-- All trees of a children forest, enumerated from index `i` on. -/
def forestIdOK : String → Nat → List STree → Prop
  | _, _, [] => True
  | p, i, t :: ts => treeIdOK p i t ∧ forestIdOK p (i + 1) ts

end

/-- Root `jj` carries id `str(jj)` (with no trailing separator) and its
children use the prefix `str(jj) + "#"`. -/
def rootsIdOK : Nat → List (String × Label × List STree) → Prop
  | _, [] => True
  | jj, (id, _, cs) :: rest =>
    id = natStr jj ∧ forestIdOK (natStr jj ++ "#") 0 cs ∧ rootsIdOK (jj + 1) rest

mutual

/-- A forest generated with `level` hops remaining below a node of type
`nt` enumerates exactly `schema[nt]` in order (and is empty at level 0),
each child recursing one level shallower. -/
def forestSchemaOK (sch : SchemaMap) : Nat → Label → List STree → Prop
  | 0, _, ts => ts = []
  | level + 1, nt, ts =>
    sch.lookup nt = some (ts.map treeET) ∧ childrenSchemaOK sch level ts

/-- Each tree of a forest has children following the schema of its own
target node type. -/
def childrenSchemaOK (sch : SchemaMap) : Nat → List STree → Prop
  | _, [] => True
  | level, .node _ et cs :: ts =>
    forestSchemaOK sch level et.n2 cs ∧ childrenSchemaOK sch level ts

end

/-- Heads and roots correspond pairwise: root `j` carries the `j`-th head
node type and a forest following that type's schema for `n` hops. -/
def rootsSchemaOK (sch : SchemaMap) (n : Nat) :
    List Label → List (String × Label × List STree) → Prop
  | [], [] => True
  | hn :: hs, (_, t, cs) :: rs =>
    t = hn ∧ forestSchemaOK sch n hn cs ∧ rootsSchemaOK sch n hs rs
  | _, _ => False

mutual

/-- All ids of a sampling tree, the node's own id first. -/
def streeIds : STree → List String
  | .node id _ cs => id :: streeIdsList cs

/-- All ids of a forest, in order. -/
def streeIdsList : List STree → List String
  | [] => []
  | t :: ts => streeIds t ++ streeIdsList ts

end

/-- All ids of a sampling forest as returned by `get_sampling_tree`. -/
def rootsIds (roots : List (String × Label × List STree)) : List String :=
  roots.flatMap (fun r => r.1 :: streeIdsList r.2.2)

/-- The shape of every id generated under prefix `key` from enumeration
index at least `lo`: the prefix, a rendered decimal index, then a tail not
starting with a digit. -/
abbrev idShape (key : String) (lo : Nat) (id : String) : Prop :=
  ∃ i r, lo ≤ i ∧ id.data = key.data ++ ((natStr i).data ++ r) ∧ ndStart r

theorem streeIds_node (id : String) (et : EdgeType) (cs : List STree) :
    streeIds (.node id et cs) = id :: streeIdsList cs := by
  rw [streeIds]

theorem streeIdsList_nil : streeIdsList [] = [] := by
  rw [streeIdsList]

theorem streeIdsList_cons (t : STree) (ts : List STree) :
    streeIdsList (t :: ts) = streeIds t ++ streeIdsList ts := by
  rw [streeIdsList]

theorem gnt_zero (sch : SchemaMap) (nt : Label) (key : String) :
    get_neighbor_types sch nt 0 key = .ok [] := by
  rw [get_neighbor_types]

theorem gnt_zero_inv {sch : SchemaMap} {nt : Label} {key : String} {ts : List STree}
    (h : get_neighbor_types sch nt 0 key = .ok ts) : ts = [] := by
  rw [gnt_zero] at h
  exact (Except.ok.inj h).symm

theorem gnt_succ_lookup {sch : SchemaMap} {nt : Label} {ets : List EdgeType}
    (hl : sch.lookup nt = some ets) (level : Nat) (key : String) :
    get_neighbor_types sch nt (level + 1) key = neighborList sch ets 0 level key := by
  rw [get_neighbor_types, hl]

theorem gnt_succ_inv {sch : SchemaMap} {nt : Label} {level : Nat} {key : String}
    {ts : List STree} (h : get_neighbor_types sch nt (level + 1) key = .ok ts) :
    ∃ ets, sch.lookup nt = some ets ∧ neighborList sch ets 0 level key = .ok ts := by
  cases hl : sch.lookup nt with
  | none =>
    rw [get_neighbor_types, hl] at h
    exact Except.noConfusion (show Except.error ("KeyError: " ++ nt) = Except.ok ts from h)
  | some ets =>
    rw [gnt_succ_lookup hl] at h
    exact ⟨ets, rfl, h⟩

theorem nl_nil (sch : SchemaMap) (ii level : Nat) (key : String) :
    neighborList sch [] ii level key = .ok [] := by
  rw [neighborList]

theorem nl_cons_ok {sch : SchemaMap} {et : EdgeType} {rest : List EdgeType}
    {ii level : Nat} {key : String} {sub others : List STree}
    (h1 : get_neighbor_types sch et.n2 level (gen_key key ii ++ "_") = .ok sub)
    (h2 : neighborList sch rest (ii + 1) level key = .ok others) :
    neighborList sch (et :: rest) ii level key =
      .ok (STree.node (gen_key key ii) et sub :: others) := by
  rw [neighborList, h1, h2]
  rfl

theorem nl_cons_inv {sch : SchemaMap} {et : EdgeType} {rest : List EdgeType}
    {ii level : Nat} {key : String} {ts : List STree}
    (h : neighborList sch (et :: rest) ii level key = .ok ts) :
    ∃ sub others,
      get_neighbor_types sch et.n2 level (gen_key key ii ++ "_") = .ok sub ∧
      neighborList sch rest (ii + 1) level key = .ok others ∧
      ts = STree.node (gen_key key ii) et sub :: others := by
  rw [neighborList] at h
  cases hs : get_neighbor_types sch et.n2 level (gen_key key ii ++ "_") with
  | error msg =>
    rw [hs] at h
    exact Except.noConfusion (show Except.error msg = Except.ok ts from h)
  | ok sub =>
    rw [hs] at h
    cases ho : neighborList sch rest (ii + 1) level key with
    | error msg =>
      rw [ho] at h
      exact Except.noConfusion (show Except.error msg = Except.ok ts from h)
    | ok others =>
      rw [ho] at h
      exact ⟨sub, others, rfl, rfl,
        (Except.ok.inj (show Except.ok (STree.node (gen_key key ii) et sub :: others)
          = Except.ok ts from h)).symm⟩

theorem rootList_nil (sch : SchemaMap) (jj n : Nat) :
    rootList sch [] jj n = .ok [] := by
  rw [rootList]

theorem rootList_cons_ok {sch : SchemaMap} {hn : Label} {rest : List Label}
    {jj n : Nat} {sub : List STree} {others : List (String × Label × List STree)}
    (h1 : get_neighbor_types sch hn n (gen_key "" jj ++ "#") = .ok sub)
    (h2 : rootList sch rest (jj + 1) n = .ok others) :
    rootList sch (hn :: rest) jj n = .ok ((natStr jj, hn, sub) :: others) := by
  rw [rootList, h1, h2]
  rfl

theorem rootList_cons_inv {sch : SchemaMap} {hn : Label} {rest : List Label}
    {jj n : Nat} {ts : List (String × Label × List STree)}
    (h : rootList sch (hn :: rest) jj n = .ok ts) :
    ∃ sub others,
      get_neighbor_types sch hn n (gen_key "" jj ++ "#") = .ok sub ∧
      rootList sch rest (jj + 1) n = .ok others ∧
      ts = (natStr jj, hn, sub) :: others := by
  rw [rootList] at h
  cases hs : get_neighbor_types sch hn n (gen_key "" jj ++ "#") with
  | error msg =>
    rw [hs] at h
    exact Except.noConfusion (show Except.error msg = Except.ok ts from h)
  | ok sub =>
    rw [hs] at h
    cases ho : rootList sch rest (jj + 1) n with
    | error msg =>
      rw [ho] at h
      exact Except.noConfusion (show Except.error msg = Except.ok ts from h)
    | ok others =>
      rw [ho] at h
      exact ⟨sub, others, rfl, rfl,
        (Except.ok.inj (show Except.ok ((natStr jj, hn, sub) :: others)
          = Except.ok ts from h)).symm⟩

/-- A successful comprehension run yields a forest whose ids follow the
key scheme and whose trees enumerate the schema bucket in order. -/
theorem nl_struct {sch : SchemaMap} {level : Nat}
    (hA : ∀ (nt : Label) (key : String) (ts : List STree),
      get_neighbor_types sch nt level key = .ok ts →
      forestIdOK key 0 ts ∧ forestSchemaOK sch level nt ts) :
    ∀ (ets : List EdgeType) (ii : Nat) (key : String) (ts : List STree),
      neighborList sch ets ii level key = .ok ts →
      forestIdOK key ii ts ∧ ts.map treeET = ets ∧ childrenSchemaOK sch level ts := by
  intro ets
  induction ets with
  | nil =>
    intro ii key ts h
    rw [nl_nil] at h
    obtain rfl := (Except.ok.inj h).symm
    refine ⟨?_, rfl, ?_⟩
    · rw [forestIdOK]
      trivial
    · rw [childrenSchemaOK]
      trivial
  | cons et rest ih =>
    intro ii key ts h
    obtain ⟨sub, others, hsub, ho, rfl⟩ := nl_cons_inv h
    obtain ⟨hsubId, hsubSch⟩ := hA et.n2 (gen_key key ii ++ "_") sub hsub
    obtain ⟨hoId, hoMap, hoCh⟩ := ih (ii + 1) key others ho
    refine ⟨?_, ?_, ?_⟩
    · rw [forestIdOK]
      refine ⟨?_, hoId⟩
      rw [treeIdOK]
      exact ⟨rfl, hsubId⟩
    · rw [List.map_cons, hoMap]
      rfl
    · rw [childrenSchemaOK]
      exact ⟨hsubSch, hoCh⟩

/-- A successful `get_neighbor_types` run yields a forest whose ids follow
the key scheme and whose trees enumerate the schema in order. -/
theorem gnt_struct {sch : SchemaMap} :
    ∀ (level : Nat) (nt : Label) (key : String) (ts : List STree),
      get_neighbor_types sch nt level key = .ok ts →
      forestIdOK key 0 ts ∧ forestSchemaOK sch level nt ts := by
  intro level
  induction level with
  | zero =>
    intro nt key ts h
    obtain rfl := gnt_zero_inv h
    refine ⟨?_, ?_⟩
    · rw [forestIdOK]
      trivial
    · rw [forestSchemaOK]
  | succ l ihl =>
    intro nt key ts h
    obtain ⟨ets, hl, hnl⟩ := gnt_succ_inv h
    obtain ⟨hId, hMap, hCh⟩ := nl_struct ihl ets 0 key ts hnl
    refine ⟨hId, ?_⟩
    rw [forestSchemaOK]
    refine ⟨?_, hCh⟩
    rw [hl, hMap]

/-- Every id of a comprehension-produced forest decomposes as the key, a
rendered enumeration index (at least the starting index), and a tail that
does not begin with a digit; and the ids are pairwise distinct. -/
theorem nl_ids {sch : SchemaMap} {level : Nat}
    (hA : ∀ (nt : Label) (key : String) (ts : List STree),
      get_neighbor_types sch nt level key = .ok ts →
      (∀ id ∈ streeIdsList ts, idShape key 0 id) ∧ (streeIdsList ts).Nodup) :
    ∀ (ets : List EdgeType) (ii : Nat) (key : String) (ts : List STree),
      neighborList sch ets ii level key = .ok ts →
      (∀ id ∈ streeIdsList ts, idShape key ii id) ∧ (streeIdsList ts).Nodup := by
  intro ets
  induction ets with
  | nil =>
    intro ii key ts h
    rw [nl_nil] at h
    obtain rfl := (Except.ok.inj h).symm
    rw [streeIdsList_nil]
    exact ⟨fun id hid => absurd hid (List.not_mem_nil id), List.nodup_nil⟩
  | cons et rest ih =>
    intro ii key ts h
    obtain ⟨sub, others, hsub, ho, rfl⟩ := nl_cons_inv h
    obtain ⟨hsubSh, hsubNd⟩ := hA et.n2 (gen_key key ii ++ "_") sub hsub
    obtain ⟨hoSh, hoNd⟩ := ih (ii + 1) key others ho
    have hids : streeIdsList (STree.node (gen_key key ii) et sub :: others)
        = (gen_key key ii :: streeIdsList sub) ++ streeIdsList others := by
      rw [streeIdsList_cons, streeIds_node]
    have hus : ("_" : String).data = ['_'] := rfl
    have hkeyd : (gen_key key ii).data = key.data ++ (natStr ii).data := by
      rw [gen_key]
      exact String.data_append key (natStr ii)
    have hhead : ∀ a ∈ gen_key key ii :: streeIdsList sub,
        ∃ r, a.data = key.data ++ ((natStr ii).data ++ r) ∧ ndStart r := by
      intro a ha
      rcases List.mem_cons.mp ha with rfl | hmem
      · refine ⟨[], ?_, trivial⟩
        rw [List.append_nil]
        exact hkeyd
      · obtain ⟨i', r', _, hdata, _⟩ := hsubSh a hmem
        refine ⟨'_' :: ((natStr i').data ++ r'), ?_, rfl⟩
        rw [hdata, String.data_append, hkeyd, hus]
        simp [List.append_assoc]
    rw [hids]
    constructor
    · intro id hid
      rcases List.mem_append.mp hid with hmem | hmem
      · obtain ⟨r, hd, hnd⟩ := hhead id hmem
        exact ⟨ii, r, le_refl ii, hd, hnd⟩
      · obtain ⟨i, r, hle, hd, hnd⟩ := hoSh id hmem
        exact ⟨i, r, by omega, hd, hnd⟩
    · rw [List.nodup_append]
      refine ⟨?_, hoNd, ?_⟩
      · rw [List.nodup_cons]
        refine ⟨?_, hsubNd⟩
        intro hmem
        obtain ⟨i', r', _, hdata, _⟩ := hsubSh _ hmem
        have hlen := congrArg List.length hdata
        rw [String.data_append, hkeyd, hus] at hlen
        simp [List.length_append] at hlen
      · intro a ha hb
        obtain ⟨r, hd, hnd⟩ := hhead a ha
        obtain ⟨i', r', hle, hd', hnd'⟩ := hoSh a hb
        rw [hd] at hd'
        obtain ⟨heq, _⟩ := natStr_block_eq hnd hnd' (List.append_cancel_left hd')
        omega

/-- The id shape and distinctness of `get_neighbor_types` results. -/
theorem gnt_ids {sch : SchemaMap} :
    ∀ (level : Nat) (nt : Label) (key : String) (ts : List STree),
      get_neighbor_types sch nt level key = .ok ts →
      (∀ id ∈ streeIdsList ts, idShape key 0 id) ∧ (streeIdsList ts).Nodup := by
  intro level
  induction level with
  | zero =>
    intro nt key ts h
    obtain rfl := gnt_zero_inv h
    rw [streeIdsList_nil]
    exact ⟨fun id hid => absurd hid (List.not_mem_nil id), List.nodup_nil⟩
  | succ l ihl =>
    intro nt key ts h
    obtain ⟨ets, _, hnl⟩ := gnt_succ_inv h
    exact nl_ids ihl ets 0 key ts hnl

/-- The root comprehension produces roots with the id scheme, heads-before,
schema-conformant forests, and globally distinct ids. -/
theorem rootList_struct {sch : SchemaMap} {n : Nat} :
    ∀ (heads : List Label) (jj : Nat) (ts : List (String × Label × List STree)),
      rootList sch heads jj n = .ok ts →
      rootsIdOK jj ts ∧ rootsSchemaOK sch n heads ts ∧
      (∀ a ∈ rootsIds ts, ∃ j r, jj ≤ j ∧ a.data = (natStr j).data ++ r ∧ ndStart r) ∧
      (rootsIds ts).Nodup := by
  intro heads
  induction heads with
  | nil =>
    intro jj ts h
    rw [rootList_nil] at h
    obtain rfl := (Except.ok.inj h).symm
    refine ⟨?_, ?_, ?_, ?_⟩
    · rw [rootsIdOK]
      trivial
    · rw [rootsSchemaOK]
      trivial
    · intro a ha
      exact absurd ha (by simp [rootsIds])
    · simp [rootsIds]
  | cons hn rest ih =>
    intro jj ts h
    obtain ⟨sub, others, hsub, ho, rfl⟩ := rootList_cons_inv h
    obtain ⟨hId, hSch⟩ := gnt_struct n hn (gen_key "" jj ++ "#") sub hsub
    obtain ⟨hSh, hNd⟩ := gnt_ids n hn (gen_key "" jj ++ "#") sub hsub
    obtain ⟨hoId, hoSch, hoSh, hoNd⟩ := ih (jj + 1) others ho
    have hg : gen_key "" jj = natStr jj := by
      rw [gen_key]
      exact String.empty_append (natStr jj)
    have hhd : ("#" : String).data = ['#'] := rfl
    have hkd : (gen_key "" jj ++ "#").data = (natStr jj).data ++ ['#'] := by
      rw [String.data_append, hg, hhd]
    have hids : rootsIds ((natStr jj, hn, sub) :: others)
        = (natStr jj :: streeIdsList sub) ++ rootsIds others := by
      rw [rootsIds, rootsIds, List.flatMap_cons]
    have hhead : ∀ a ∈ natStr jj :: streeIdsList sub,
        ∃ r, a.data = (natStr jj).data ++ r ∧ ndStart r := by
      intro a ha
      rcases List.mem_cons.mp ha with rfl | hmem
      · exact ⟨[], (List.append_nil _).symm, trivial⟩
      · obtain ⟨i', r', _, hdata, _⟩ := hSh a hmem
        refine ⟨'#' :: ((natStr i').data ++ r'), ?_, rfl⟩
        rw [hdata, hkd]
        simp [List.append_assoc]
    refine ⟨?_, ?_, ?_, ?_⟩
    · rw [rootsIdOK]
      refine ⟨rfl, ?_, hoId⟩
      rw [hg] at hId
      exact hId
    · rw [rootsSchemaOK]
      exact ⟨rfl, hSch, hoSch⟩
    · rw [hids]
      intro a ha
      rcases List.mem_append.mp ha with hmem | hmem
      · obtain ⟨r, hd, hnd⟩ := hhead a hmem
        exact ⟨jj, r, le_refl jj, hd, hnd⟩
      · obtain ⟨j, r, hle, hd, hnd⟩ := hoSh a hmem
        exact ⟨j, r, by omega, hd, hnd⟩
    · rw [hids, List.nodup_append]
      refine ⟨?_, hoNd, ?_⟩
      · rw [List.nodup_cons]
        refine ⟨?_, hNd⟩
        intro hmem
        obtain ⟨i', r', _, hdata, _⟩ := hSh _ hmem
        have hlen := congrArg List.length hdata
        rw [hkd] at hlen
        simp [List.length_append] at hlen
      · intro a ha hb
        obtain ⟨r, hd, hnd⟩ := hhead a ha
        obtain ⟨j, r', hle, hd', hnd'⟩ := hoSh a hb
        rw [hd] at hd'
        obtain ⟨heq, _⟩ := natStr_block_eq hnd hnd' hd'
        omega

/-- C4 (amended): in a successfully generated sampling forest, root `j`
(0-indexed) carries id `str(j)` and its children recurse under the key
`str(j) + "#"`; the children of every node enumerate its type's
`schema[node_type]` edge types in order, child `i` of a node with running
key `p` carrying id `p + str(i)` and recursing under the key
`p + str(i) + "_"` (the separators extend the key passed down, they are
not part of the node's own id); and all ids are unique across the whole
forest. -/
theorem sampling_tree_ids (sch : SchemaMap) (heads : List Label) (n : Nat)
    (roots : List (String × Label × List STree))
    (hok : get_sampling_tree sch heads n = .ok roots) :
    rootsIdOK 0 roots ∧ rootsSchemaOK sch n heads roots ∧ (rootsIds roots).Nodup := by
  obtain ⟨h1, h2, _, h4⟩ := rootList_struct heads 0 roots hok
  exact ⟨h1, h2, h4⟩

/-- C4 (counterexample): root 0's id is `"0"`, not `"0#"`, and its first
child's id is `"0#0"`, not `"0#0_"`: the `"#"` and `"_"` separators are
appended to the key handed to the descendants, not to the id itself. -/
theorem sampling_tree_separator_counterexample :
    get_sampling_tree schLoop ["P"] 1 =
      .ok [("0", "P", [STree.node "0#0" ⟨"P", "r", "P"⟩ []])] ∧
    ("0" : String) ≠ "0#" ∧ ("0#0" : String) ≠ "0#0_" := by
  refine ⟨?_, by decide, by decide⟩
  have hl : schLoop.lookup "P" = some [(⟨"P", "r", "P"⟩ : EdgeType)] := rfl
  have e1 : get_neighbor_types schLoop "P" 0 (gen_key "0#" 0 ++ "_") = .ok [] :=
    gnt_zero _ _ _
  have e2 : neighborList schLoop [] 1 0 "0#" = .ok [] := nl_nil _ _ _ _
  have e3 : neighborList schLoop [⟨"P", "r", "P"⟩] 0 0 "0#" =
      .ok [STree.node "0#0" ⟨"P", "r", "P"⟩ []] := nl_cons_ok e1 e2
  have e4 : get_neighbor_types schLoop "P" (0 + 1) "0#" =
      neighborList schLoop [⟨"P", "r", "P"⟩] 0 0 "0#" := gnt_succ_lookup hl 0 "0#"
  have e5 : get_neighbor_types schLoop "P" 1 (gen_key "" 0 ++ "#") =
      .ok [STree.node "0#0" ⟨"P", "r", "P"⟩ []] := e4.trans e3
  have e6 : rootList schLoop [] 1 1 = .ok [] := rootList_nil _ _ _
  exact rootList_cons_ok e5 e6

/-- The two-hop forest over the one-type looping schema, used to witness
the id-scheme theorem on a concrete run. -/
def rootsC4 : List (String × Label × List STree) :=
  [("0", "P",
    [STree.node "0#0" ⟨"P", "r", "P"⟩ [STree.node "0#0_0" ⟨"P", "r", "P"⟩ []]])]

/-- Witness: the id scheme, schema conformance and id uniqueness of the
concrete two-hop run over the looping schema. -/
theorem sampling_tree_ids_witness :
    rootsIdOK 0 rootsC4 ∧ rootsSchemaOK schLoop 2 ["P"] rootsC4 ∧
      (rootsIds rootsC4).Nodup :=
  sampling_tree_ids schLoop ["P"] 2 rootsC4 (by
    have hl : schLoop.lookup "P" = some [(⟨"P", "r", "P"⟩ : EdgeType)] := rfl
    have e1 : get_neighbor_types schLoop "P" 0 (gen_key "0#0_" 0 ++ "_") = .ok [] :=
      gnt_zero _ _ _
    have e2 : neighborList schLoop [] 1 0 "0#0_" = .ok [] := nl_nil _ _ _ _
    have e3 : neighborList schLoop [⟨"P", "r", "P"⟩] 0 0 "0#0_" =
        .ok [STree.node "0#0_0" ⟨"P", "r", "P"⟩ []] := nl_cons_ok e1 e2
    have e4 : get_neighbor_types schLoop "P" (0 + 1) "0#0_" =
        neighborList schLoop [⟨"P", "r", "P"⟩] 0 0 "0#0_" := gnt_succ_lookup hl 0 "0#0_"
    have e5 : get_neighbor_types schLoop "P" 1 (gen_key "0#" 0 ++ "_") =
        .ok [STree.node "0#0_0" ⟨"P", "r", "P"⟩ []] := e4.trans e3
    have e6 : neighborList schLoop [] 1 1 "0#" = .ok [] := nl_nil _ _ _ _
    have e7 : neighborList schLoop [⟨"P", "r", "P"⟩] 0 1 "0#" =
        .ok [STree.node "0#0" ⟨"P", "r", "P"⟩
          [STree.node "0#0_0" ⟨"P", "r", "P"⟩ []]] := nl_cons_ok e5 e6
    have e8 : get_neighbor_types schLoop "P" (1 + 1) "0#" =
        neighborList schLoop [⟨"P", "r", "P"⟩] 0 1 "0#" := gnt_succ_lookup hl 1 "0#"
    have e9 : get_neighbor_types schLoop "P" 2 (gen_key "" 0 ++ "#") =
        .ok [STree.node "0#0" ⟨"P", "r", "P"⟩
          [STree.node "0#0_0" ⟨"P", "r", "P"⟩ []]] := e8.trans e7
    have e10 : rootList schLoop [] 1 2 = .ok [] := rootList_nil _ _ _
    exact rootList_cons_ok e9 e10)

end Stellar
